import Mathlib

/-!
Verification development for the merkelized-metadata crate.

The development shallowly embeds the three source files
(`extrinsic_decoder.rs`, `intermediate_repr.rs`, `lib.rs`) together with the
parts of the decoding pipeline the crate delegates to the external
`scale-decode`/`codec` crates; those external parts are modelled from the
specification (each such definition says so in its doc comment).  Bytes are
modelled as `List Nat`, machine integers as `Nat`, Rust `Result`/panic
outcomes as the `DOut` type below, and the possibly-cyclic decoding
recursion is made total with an explicit fuel argument (`DOut.out` marks
fuel exhaustion; Rust simply diverges or overflows the stack there).
-/

namespace MMeta

/-- Outcome of running a piece of Rust code: `ok` a value, `err` a returned
`Err(String)`, `panic` a Rust panic with its message, and `out` for fuel
exhaustion of the embedding (the Rust code has no such case; it would
diverge instead). -/
inductive DOut (α : Type) where
  | out : DOut α
  | panic : String → DOut α
  | err : String → DOut α
  | ok : α → DOut α
deriving DecidableEq, Repr

def DOut.bind {α β : Type} : DOut α → (α → DOut β) → DOut β
  | .out, _ => .out
  | .panic m, _ => .panic m
  | .err m, _ => .err m
  | .ok a, f => f a

instance : Monad DOut where
  pure := .ok
  bind := DOut.bind

/-! ## Decoder-side type model

`types::TypeRef` as matched on by `extrinsic_decoder.rs` (lines 27–50): a
by-id reference or an inlined primitive/compact/void. -/

inductive TypeRefD where
  | byId (id : Nat)
  | bool | char | str
  | u8 | u16 | u32 | u64 | u128 | u256
  | i8 | i16 | i32 | i64 | i128 | i256
  | compactU8 | compactU16 | compactU32 | compactU64 | compactU128
  | void
deriving DecidableEq, Repr

/-- `types::TypeRef::id()`: `Some` exactly for `ById` (the `.expect` calls in
the collector unwrap this). -/
def TypeRefD.id? : TypeRefD → Option Nat
  | .byId i => some i
  | _ => none

structure FieldD where
  name : Option String
  ty : TypeRefD
deriving DecidableEq, Repr

structure VariantD where
  name : String
  fields : List FieldD
  index : Nat
deriving DecidableEq, Repr

/-- `types::TypeDef` as dispatched on by `TypeResolver::resolve_type`
(`extrinsic_decoder.rs` lines 62–105).  An `enumeration` entry carries one
variant; an enumeration type id maps to one entry per variant. -/
inductive TypeDefD where
  | array (typeParam : TypeRefD) (len : Nat)
  | composite (fields : List FieldD)
  | enumeration (variant : VariantD)
  | sequence (ty : TypeRefD)
  | tuple (tys : List TypeRefD)
  | bitSequence (numBytes : Nat) (leastSignificantBitFirst : Bool)
deriving DecidableEq, Repr

structure SignedExtensionMetadataD where
  identifier : String
  includedInExtrinsic : TypeRefD
  includedInSignedData : TypeRefD
deriving DecidableEq, Repr

structure ExtrinsicMetadataD where
  version : Nat
  addressTy : TypeRefD
  callTy : TypeRefD
  signatureTy : TypeRefD
  extraTy : TypeRefD
  signedExtensions : List SignedExtensionMetadataD
deriving DecidableEq, Repr

/-- `TypeInformation` as used by the decoder: `types` maps a type id to its
entries (`types.get(&type_id)`, `types[0].type_def`, iteration over all
entries for enumerations), modelled as a sorted association list. -/
structure TypeInformation where
  types : List (Nat × List TypeDefD)
  extrinsicMetadata : ExtrinsicMetadataD
deriving DecidableEq, Repr

def lookupTypes (ti : TypeInformation) : Nat → Option (List TypeDefD) :=
  fun i => go ti.types i
where
  go : List (Nat × List TypeDefD) → Nat → Option (List TypeDefD)
    | [], _ => none
    | (j, tds) :: rest, i => if i = j then some tds else go rest i

/-! ## Access collector state (`CollectAccessedTypes`)

`accessed_types : BTreeMap<u32, AccessedType>` is modelled as an association
list sorted by key; `BTreeSet<u32>` as a sorted duplicate-free list. -/

inductive AccessedType where
  | enumeration (variants : List Nat)
  | other
deriving DecidableEq, Repr

abbrev AccMap := List (Nat × AccessedType)

/-- Sorted-set insertion, modelling `BTreeSet::insert`. -/
def setInsert (x : Nat) : List Nat → List Nat
  | [] => [x]
  | y :: ys =>
    if x < y then x :: y :: ys
    else if x = y then y :: ys
    else y :: setInsert x ys

/-- Sorted-map insertion, modelling `BTreeMap::insert` (replaces the value
on an existing key). -/
def mapInsert (i : Nat) (v : AccessedType) : AccMap → AccMap
  | [] => [(i, v)]
  | (j, w) :: rest =>
    if i < j then (i, v) :: (j, w) :: rest
    else if i = j then (i, v) :: rest
    else (j, w) :: mapInsert i v rest

def lookupAcc : AccMap → Nat → Option AccessedType
  | [], _ => none
  | (j, w) :: rest, i => if i = j then some w else lookupAcc rest i

/-- `AccessedType::add_variant` preceded by the
`entry(id).or_insert_with(Enumeration)` call of the collector (`extrinsic_decoder.rs` lines
315–322): panics when the entry was previously recorded as non-enumeration. -/
def accAddVariant (acc : AccMap) (i idx : Nat) : DOut AccMap :=
  match lookupAcc acc i with
  | none => .ok (mapInsert i (.enumeration (setInsert idx [])) acc)
  | some (.enumeration vs) => .ok (mapInsert i (.enumeration (setInsert idx vs)) acc)
  | some .other => .panic "add_variant should only be called for Enumerations"

/-- Conversion of the final map to the returned list
(`extrinsic_decoder.rs` lines 445–452): `Other` becomes an empty variant
list, `Enumeration` yields its sorted variant set. -/
def accToList (acc : AccMap) : List (Nat × List Nat) :=
  acc.map fun p =>
    match p.2 with
    | .other => (p.1, [])
    | .enumeration vs => (p.1, vs)

/-! ## Byte-level primitives

Modelled from the spec: the SCALE codec (`codec`/`scale-decode` crates,
spec section 4.1) is not part of this repository; compact integers use the
standard 1/2/4/n-byte little-endian modes with canonical-range checks. -/

def leBytes : List Nat → Nat :=
  List.foldr (fun b acc => b + 256 * acc) 0

/-- Modelled from the spec: standard compact (variable-length) unsigned
integer decoding; returns the value and the remaining bytes. -/
def compactDecode : List Nat → Option (Nat × List Nat)
  | [] => none
  | b :: rest =>
    match b % 4 with
    | 0 => some (b / 4, rest)
    | 1 =>
      match rest with
      | b2 :: rest2 =>
        let v := (b + 256 * b2) / 4
        if 64 ≤ v then some (v, rest2) else none
      | [] => none
    | 2 =>
      match rest with
      | b2 :: b3 :: b4 :: rest4 =>
        let v := (b + 256 * b2 + 65536 * b3 + 16777216 * b4) / 4
        if 16384 ≤ v then some (v, rest4) else none
      | _ => none
    | _ =>
      let count := b / 4 + 4
      if count ≤ 16 ∧ count ≤ rest.length then
        let v := leBytes (rest.take count)
        if 1073741824 ≤ v then some (v, rest.drop count) else none
      else none

def dropBytes (n : Nat) (bytes : List Nat) : DOut (List Nat) :=
  if n ≤ bytes.length then .ok (bytes.drop n) else .err "Not enough data"

/-- Modelled from the spec: byte consumption for the inlined primitive
`TypeRef`s (spec section 4.5); delivers no access record.  The `byId` and
`void` cases are handled by the caller and unreachable here. -/
def decodePrimBytes : TypeRefD → List Nat → DOut (List Nat)
  | .bool, bytes =>
    match bytes with
    | [] => .err "Not enough data"
    | b :: rest => if b = 0 ∨ b = 1 then .ok rest else .err "Invalid bool"
  | .char, bytes =>
    match bytes with
    | b0 :: b1 :: b2 :: b3 :: rest =>
      let n := b0 + 256 * b1 + 65536 * b2 + 16777216 * b3
      if n < 55296 ∨ (57344 ≤ n ∧ n < 1114112) then .ok rest else .err "Invalid char"
    | _ => .err "Not enough data"
  | .str, bytes =>
    match compactDecode bytes with
    | some (n, rest) => dropBytes n rest
    | none => .err "Failed to decode str length"
  | .u8, bytes => dropBytes 1 bytes
  | .u16, bytes => dropBytes 2 bytes
  | .u32, bytes => dropBytes 4 bytes
  | .u64, bytes => dropBytes 8 bytes
  | .u128, bytes => dropBytes 16 bytes
  | .u256, bytes => dropBytes 32 bytes
  | .i8, bytes => dropBytes 1 bytes
  | .i16, bytes => dropBytes 2 bytes
  | .i32, bytes => dropBytes 4 bytes
  | .i64, bytes => dropBytes 8 bytes
  | .i128, bytes => dropBytes 16 bytes
  | .i256, bytes => dropBytes 32 bytes
  | .compactU8, bytes => compactRange 256 bytes
  | .compactU16, bytes => compactRange 65536 bytes
  | .compactU32, bytes => compactRange 4294967296 bytes
  | .compactU64, bytes => compactRange 18446744073709551616 bytes
  | .compactU128, bytes => compactRange 340282366920938463463374607431768211456 bytes
  | _, _ => .err "not an inlined primitive"
where
  compactRange (bound : Nat) (bytes : List Nat) : DOut (List Nat) :=
    match compactDecode bytes with
    | some (n, rest) => if n < bound then .ok rest else .err "out of range"
    | none => .err "Failed to decode compact"

/-! ## The schema-driven decode loop

Modelled from the spec (section 4.5) for the parts living in `scale-decode`
(cursor advancement, skip-decoding of values the visitor does not consume),
combined with the `Visitor for CollectAccessedTypes` impl of
`extrinsic_decoder.rs` (lines 132–364) for what gets recorded.  `Mode.skip`
is scale-decode decoding with its ignoring visitor (used for the sequence
elements the collector never sees); `Mode.collect` is decoding with
`CollectAccessedTypes`. -/

inductive Mode where
  | collect
  | skip
deriving DecidableEq, Repr

/-- One pending unit of decoding work: a single value, or `n` repetitions of
a value (array elements / remaining sequence elements). -/
inductive DJob where
  | val (mode : Mode) (ty : TypeRefD)
  | rep (mode : Mode) (ty : TypeRefD) (n : Nat)
deriving DecidableEq, Repr

/-- Record `unique_id ↦ Other`, i.e. the
`accessed_types.insert(type_id.id().expect(msg), AccessedType::Other)` calls
of the collector; `msg` is the source expect message for that visit. -/
def recordAccess (mode : Mode) (ty : TypeRefD) (msg : String) (acc : AccMap) : DOut AccMap :=
  match mode with
  | .skip => .ok acc
  | .collect =>
    match ty.id? with
    | some i => .ok (mapInsert i .other acc)
    | none => .panic msg

/-- Record a taken enum variant (`visit_variant`, lines 315–322).  The type
id of an enumeration entry is structurally `byId` here, so only the
`add_variant` panic can occur. -/
def recordVariant (mode : Mode) (i idx : Nat) (acc : AccMap) : DOut AccMap :=
  match mode with
  | .skip => .ok acc
  | .collect => accAddVariant acc i idx

/-- Scan the entries registered for an enumeration id for the variant with
the given index, forcing the entries in order exactly like the lazy variant
iterator built in `resolve_type` (lines 68–81): a non-enumeration entry
encountered before the match panics with "AHH". -/
def findVariant : List TypeDefD → Nat → DOut VariantD
  | [], _ => .err "Variant not found"
  | .enumeration v :: rest, idx =>
    if v.index = idx then .ok v else findVariant rest idx
  | _ :: _, _ => .panic "AHH"

/-- The decode loop, driven by an explicit worklist; each step mirrors one
`decode_with_visitor` dispatch of `resolve_type` plus the corresponding
collector visit.  In `collect` mode a sequence contributes only its first
element to the collector (`visit_sequence`, lines 249–262: a single
`decode_item`), the rest being skip-decoded by scale-decode to advance the
cursor; composites, tuples, arrays and variant fields are fully collected
(their visits loop over `decode_item`). -/
def decodeRun (ti : TypeInformation) : Nat → List DJob → AccMap → List Nat →
    DOut (AccMap × List Nat)
  | _, [], acc, bytes => .ok (acc, bytes)
  | 0, _ :: _, _, _ => .out
  | fuel + 1, .rep mode ty n :: jobs, acc, bytes =>
    match n with
    | 0 => decodeRun ti fuel jobs acc bytes
    | n + 1 => decodeRun ti fuel (.val mode ty :: .rep mode ty n :: jobs) acc bytes
  | fuel + 1, .val mode ty :: jobs, acc, bytes =>
    match ty with
    | .byId i =>
      match lookupTypes ti i with
      | none => .err "Unknown type id"
      | some [] => .err "type is empty"
      | some (td :: tds) =>
        match td with
        | .composite fs =>
          (recordAccess mode (.byId i) "Composite is always referenced by id; qed" acc).bind
            fun acc =>
              decodeRun ti fuel (fs.map (fun fd => .val mode fd.ty) ++ jobs) acc bytes
        | .tuple ts =>
          (recordAccess mode (.byId i) "Tuple is always referenced by id; qed" acc).bind
            fun acc =>
              decodeRun ti fuel (ts.map (fun t => DJob.val mode t) ++ jobs) acc bytes
        | .enumeration _ =>
          match bytes with
          | [] => .err "Not enough data"
          | idx :: bytes =>
            (findVariant (td :: tds) idx).bind fun v =>
              (recordVariant mode i idx acc).bind fun acc =>
                decodeRun ti fuel (v.fields.map (fun fd => .val mode fd.ty) ++ jobs) acc bytes
        | .sequence elemTy =>
          match compactDecode bytes with
          | none => .err "Failed to decode sequence length"
          | some (n, bytes) =>
            (recordAccess mode (.byId i) "Sequence is always referenced by id; qed" acc).bind
              fun acc =>
                match mode with
                | .collect =>
                  match n with
                  | 0 => decodeRun ti fuel jobs acc bytes
                  | n + 1 =>
                    decodeRun ti fuel
                      (.val .collect elemTy :: .rep .skip elemTy n :: jobs) acc bytes
                | .skip => decodeRun ti fuel (.rep .skip elemTy n :: jobs) acc bytes
        | .array elemTy len =>
          (recordAccess mode (.byId i) "BitSequence is always referenced by id; qed" acc).bind
            fun acc =>
              decodeRun ti fuel (.rep mode elemTy len :: jobs) acc bytes
        | .bitSequence nb _lsb =>
          if nb = 1 ∨ nb = 2 ∨ nb = 4 ∨ nb = 8 then
            match compactDecode bytes with
            | none => .err "Failed to decode bit length"
            | some (n, bytes) =>
              (recordAccess mode (.byId i) "BitSequence is always referenced by id; qed" acc).bind
                fun acc =>
                  (dropBytes (((n + 8 * nb - 1) / (8 * nb)) * nb) bytes).bind fun bytes =>
                    decodeRun ti fuel jobs acc bytes
          else .err "Unsupported number of bytes"
    | .void =>
      (recordAccess mode .void "Composite is always referenced by id; qed" acc).bind
        fun acc => decodeRun ti fuel jobs acc bytes
    | t =>
      (decodePrimBytes t bytes).bind fun bytes => decodeRun ti fuel jobs acc bytes

/-- `decode_with_visitor` on a single type. -/
def decodeValue (ti : TypeInformation) (fuel : Nat) (mode : Mode) (ty : TypeRefD)
    (acc : AccMap) (bytes : List Nat) : DOut (AccMap × List Nat) :=
  decodeRun ti fuel [.val mode ty] acc bytes

/-- The signed-extension fold of the signed path
(`extrinsic_decoder.rs` lines 402–414): the `included_in_extrinsic` type of
each extension decoded in declared order against the extrinsic
bytes. -/
def decodeExtras (ti : TypeInformation) (fuel : Nat) :
    List SignedExtensionMetadataD → AccMap → List Nat → DOut (AccMap × List Nat)
  | [], acc, bytes => .ok (acc, bytes)
  | se :: rest, acc, bytes =>
    (decodeValue ti fuel .collect se.includedInExtrinsic acc bytes).bind fun r =>
      decodeExtras ti fuel rest r.1 r.2

/-- The additional-signed fold (`extrinsic_decoder.rs` lines 427–443).  Note
that the source decodes `se.included_in_extrinsic` here as well, not
`se.included_in_signed_data`. -/
def decodeAdditional (ti : TypeInformation) (fuel : Nat) :
    List SignedExtensionMetadataD → AccMap → List Nat → DOut (AccMap × List Nat)
  | [], acc, bytes => .ok (acc, bytes)
  | se :: rest, acc, bytes =>
    (decodeValue ti fuel .collect se.includedInExtrinsic acc bytes).bind fun r =>
      decodeAdditional ti fuel rest r.1 r.2

/-- `decode_extrinsic_and_collect_type_ids` (lines 366–453): compact length
prefix (read and dropped), version byte with signed flag in bit 7 and
version in bits 0–6, optional signed part, call, optional additional-signed
part, then the collected map converted to a list. -/
def decodeExtrinsicAndCollectTypeIds (fuel : Nat) (extrinsic : List Nat)
    (additionalSigned : Option (List Nat)) (ti : TypeInformation) :
    DOut (List (Nat × List Nat)) :=
  match compactDecode extrinsic with
  | none => .err "Failed to read length"
  | some (_len, r1) =>
    match r1 with
    | [] => .err "Failed to read version byte"
    | v :: r2 =>
      let isSigned := v &&& 128 ≠ 0
      let version := v &&& 127
      if version ≠ 4 then .err "Invalid transaction version"
      else
        (if isSigned then
            (decodeValue ti fuel .collect ti.extrinsicMetadata.addressTy [] r2).bind fun r =>
              (decodeValue ti fuel .collect ti.extrinsicMetadata.signatureTy r.1 r.2).bind
                fun r =>
                  decodeExtras ti fuel ti.extrinsicMetadata.signedExtensions r.1 r.2
          else .ok ([], r2)).bind fun r =>
          (decodeValue ti fuel .collect ti.extrinsicMetadata.callTy r.1 r.2).bind fun r =>
            (match additionalSigned with
              | none => (.ok r.1 : DOut AccMap)
              | some add =>
                (decodeAdditional ti fuel ti.extrinsicMetadata.signedExtensions r.1 add).bind
                  fun r => .ok r.1).bind fun acc =>
              .ok (accToList acc)

/-! ## Intermediate representation (`intermediate_repr.rs`)

The Rust IR uses `Rc<RefCell<TypeRefInner>>` references forming a possibly
cyclic graph; we model the arena of referenced cells as a list and an IR
`TypeRef` as an index into it.  A `none` entry is an `Unresolved` cell
(`expect_resolved` panics on it). -/

inductive Prim where
  | bool | char | str
  | u8 | u16 | u32 | u64 | u128 | u256
  | i8 | i16 | i32 | i64 | i128 | i256
deriving DecidableEq, Repr

structure IRField where
  name : Option String
  ty : Nat
  typeName : Option String
deriving DecidableEq, Repr

structure IRVariant where
  name : String
  fields : List IRField
  index : Nat
deriving DecidableEq, Repr

/-- `intermediate_repr::TypeDef` (lines 32–42).  `bitSequence` keeps the
store and order references (lines 97–101). -/
inductive IRTypeDef where
  | composite (fields : List IRField)
  | enumeration (variants : List IRVariant)
  | sequence (ty : Nat)
  | array (len : Nat) (typeParam : Nat)
  | tuple (tys : List Nat)
  | primitive (p : Prim)
  | compact (ty : Nat)
  | bitSequence (bitStoreType : Nat) (bitOrderType : Nat)
deriving DecidableEq, Repr

structure IRType where
  path : List String
  typeDef : IRTypeDef
  uniqueId : Nat
deriving DecidableEq, Repr

abbrev Registry := List (Option IRType)

/-- Dereference an IR `TypeRef`: `borrow().expect_resolved()` succeeds only
on a resolved cell. -/
def resolveRef (reg : Registry) (r : Nat) : Option IRType :=
  match reg.get? r with
  | some (some t) => some t
  | _ => none

/-- Sub-references of a type definition, in the order `visit_type_def`
(lines 244–297) walks them; a `primitive` has none and a `bitSequence`
visits its order type before its store type (lines 287–295). -/
def refsOf : IRTypeDef → List Nat
  | .composite fs => fs.map IRField.ty
  | .enumeration vs => vs.foldr (fun v acc => v.fields.map IRField.ty ++ acc) []
  | .sequence s => [s]
  | .array _ tp => [tp]
  | .tuple ts => ts
  | .primitive _ => []
  | .compact c => [c]
  | .bitSequence store order => [order, store]

def primsOf : IRTypeDef → List Prim
  | .primitive p => [p]
  | _ => []

/-- Collector state of `visit_type_def`: the `already_visited` unique-id set
and the primitives found so far (`CollectPrimitives`). -/
abbrev VState := List Nat × List Prim

/-- The `visit_type_def` traversal (lines 244–297) with the
`CollectPrimitives` visitor, written with an explicit worklist of pending
references.  Popping a reference dereferences it (panicking on an
`Unresolved` cell like `expect_resolved`), skips it when its `unique_id` was
already visited, and otherwise marks it visited, records its primitive if it
is one, and pushes its own sub-references.  Fuel makes the recursion total;
the stabilization theorems below show a computable fuel bound suffices. -/
def visitRefs (reg : Registry) : Nat → VState → List Nat → DOut VState
  | _, st, [] => .ok st
  | 0, _, _ :: _ => .out
  | fuel + 1, st, r :: rs =>
    match resolveRef reg r with
    | none => .panic "Expected the TypeRef to be resolved"
    | some t =>
      if t.uniqueId ∈ st.1 then visitRefs reg fuel st rs
      else
        visitRefs reg fuel (t.uniqueId :: st.1, st.2 ++ primsOf t.typeDef)
          (refsOf t.typeDef ++ rs)

def registryEntries (reg : Registry) : List IRType :=
  reg.filterMap id

def uidFinset (reg : Registry) : Finset Nat :=
  ((registryEntries reg).map IRType.uniqueId).toFinset

/-- Largest number of sub-references of any resolved entry. -/
def maxRefs (reg : Registry) : Nat :=
  ((registryEntries reg).map (fun t => (refsOf t.typeDef).length)).foldr max 0

/-- Number of unique ids not yet visited. -/
def unvisited (reg : Registry) (visited : List Nat) : Nat :=
  (uidFinset reg \ visited.toFinset).card

/-- Fuel that provably suffices for `visitRefs` (see the stabilization
theorem). -/
def needFuel (reg : Registry) (st : VState) (rs : List Nat) : Nat :=
  rs.length + unvisited reg st.1 * (1 + maxRefs reg) + 1

/-- `CollectPrimitives` run by `Type::as_basic_type` /
`Type::as_basic_type_ref` (lines 140–143 and 176–179): visit the own
definition of the type with an initially empty visited set. -/
def collectPrimitives (reg : Registry) (td : IRTypeDef) : DOut (List Prim) :=
  (visitRefs reg (needFuel reg ([], primsOf td) (refsOf td)) ([], primsOf td) (refsOf td)).bind
    fun st => .ok st.2

/-- Map of `scale_info::TypeDefPrimitive` to the inlined
`types::TypeRef` variant (lines 181–197). -/
def primToRef : Prim → TypeRefD
  | .bool => .bool
  | .char => .char
  | .str => .str
  | .u8 => .u8
  | .u16 => .u16
  | .u32 => .u32
  | .u64 => .u64
  | .u128 => .u128
  | .u256 => .u256
  | .i8 => .i8
  | .i16 => .i16
  | .i32 => .i32
  | .i64 => .i64
  | .i128 => .i128
  | .i256 => .i256

/-- `Type::as_basic_type_ref` (lines 176–222).  Primitives inline; a compact
maps the single collected primitive to its inlined compact form, panicking
on several collected primitives or on a non-unsigned primitive, and
silently becoming void when no primitive was collected; a composite or tuple
whose collected primitive list is empty becomes void; everything else is a
by-id reference. -/
def asBasicTypeRef (reg : Registry) (t : IRType) : DOut TypeRefD :=
  (collectPrimitives reg t.typeDef).bind fun found =>
    match t.typeDef with
    | .primitive p => .ok (primToRef p)
    | .compact _ =>
      if found.length > 1 then .panic "Unexpected"
      else
        match found.head? with
        | some p =>
          match p with
          | .u8 => .ok .compactU8
          | .u16 => .ok .compactU16
          | .u32 => .ok .compactU32
          | .u64 => .ok .compactU64
          | .u128 => .ok .compactU128
          | _ => .panic "Unsupported primitive type for Compact"
        | none => .ok .void
    | .composite _ => if found.isEmpty then .ok .void else .ok (.byId t.uniqueId)
    | .tuple _ => if found.isEmpty then .ok .void else .ok (.byId t.uniqueId)
    | _ => .ok (.byId t.uniqueId)

/-! Basic (lowered, `types.rs`) forms produced by `as_basic_type`. -/

structure BField where
  name : Option String
  ty : TypeRefD
  typeName : Option String
deriving DecidableEq, Repr

structure BVariant where
  name : String
  fields : List BField
  index : Nat
deriving DecidableEq, Repr

/-- Lowered `types::TypeDef`.  The source stores, for an enumeration, the
Merkle root of the hashes of the index-sorted variants
(`intermediate_repr.rs` lines 148–154); we keep the sorted variant list
itself, which determines that root (hashing lives outside `src`). -/
inductive BTypeDef where
  | composite (fields : List BField)
  | enumeration (variants : List BVariant)
  | sequence (ty : TypeRefD)
  | array (len : Nat) (typeParam : TypeRefD)
  | tuple (tys : List TypeRefD)
  | bitSequence (bitStoreType : TypeRefD) (bitOrderType : TypeRefD)
deriving DecidableEq, Repr

structure BType where
  path : List String
  typeDef : BTypeDef
deriving DecidableEq, Repr

/-- Insertion into a list sorted by `key`. -/
def insertByKey {α : Type} (key : α → Nat) (x : α) : List α → List α
  | [] => [x]
  | y :: ys => if key x ≤ key y then x :: y :: ys else y :: insertByKey key x ys

/-- Insertion sort by `key`, modelling the stable `sort_by_key` call on
variants (line 150); variant indices are unique, so any sort agrees. -/
def sortByKey {α : Type} (key : α → Nat) : List α → List α
  | [] => []
  | x :: xs => insertByKey key x (sortByKey key xs)

def expectResolved (reg : Registry) (r : Nat) : DOut IRType :=
  match resolveRef reg r with
  | some t => .ok t
  | none => .panic "Expected the TypeRef to be resolved"

/-- `Field::as_basic_type` (lines 51–59). -/
def fieldAsBasic (reg : Registry) (f : IRField) : DOut BField :=
  (expectResolved reg f.ty).bind fun t =>
    (asBasicTypeRef reg t).bind fun r => .ok ⟨f.name, r, f.typeName⟩

def listMapD {α β : Type} (f : α → DOut β) : List α → DOut (List β)
  | [] => .ok []
  | x :: xs => (f x).bind fun y => (listMapD f xs).bind fun ys => .ok (y :: ys)

/-- `Variant::as_basic_type` (lines 68–76). -/
def variantAsBasic (reg : Registry) (v : IRVariant) : DOut BVariant :=
  (listMapD (fieldAsBasic reg) v.fields).bind fun fs => .ok ⟨v.name, fs, v.index⟩

def refAsBasic (reg : Registry) (r : Nat) : DOut TypeRefD :=
  (expectResolved reg r).bind fun t => asBasicTypeRef reg t

/-- `Type::as_basic_type` (lines 140–174): `none` (the entry is discarded
and never becomes a leaf) for primitives, compacts, and composites/tuples
whose collected primitive list is empty. -/
def asBasicType (reg : Registry) (t : IRType) : DOut (Option BType) :=
  (collectPrimitives reg t.typeDef).bind fun found =>
    match t.typeDef with
    | .composite fs =>
      if found.isEmpty then .ok none
      else
        (listMapD (fieldAsBasic reg) fs).bind fun bfs =>
          .ok (some ⟨t.path, .composite bfs⟩)
    | .tuple ts =>
      if found.isEmpty then .ok none
      else
        (listMapD (refAsBasic reg) ts).bind fun brs =>
          .ok (some ⟨t.path, .tuple brs⟩)
    | .compact _ => .ok none
    | .primitive _ => .ok none
    | .enumeration vs =>
      (listMapD (variantAsBasic reg) (sortByKey IRVariant.index vs)).bind fun bvs =>
        .ok (some ⟨t.path, .enumeration bvs⟩)
    | .array len tp =>
      (refAsBasic reg tp).bind fun r => .ok (some ⟨t.path, .array len r⟩)
    | .sequence s =>
      (refAsBasic reg s).bind fun r => .ok (some ⟨t.path, .sequence r⟩)
    | .bitSequence store order =>
      (refAsBasic reg store).bind fun bs =>
        (refAsBasic reg order).bind fun bo =>
          .ok (some ⟨t.path, .bitSequence bs bo⟩)

/-! ## Leaf emission model

Modelled from the spec: `from_frame_metadata.rs` (`prepare` /
`as_type_information`), which produces the final leaf vector, is not under
`src`; per spec sections 3.2, 4.2 and 4.4 the surviving entries are emitted
per unique id in increasing id order, an enumeration id contributing one
leaf per variant in increasing variant-index order and any other id exactly
one leaf. -/

inductive LeafEntry where
  | single
  | enumVariants (idxs : List Nat)
deriving DecidableEq, Repr

/-- Modelled from the spec: the final leaf vector as pairs
`(unique_id, variant_index)`; a non-enumeration leaf carries variant index
`0`. -/
def leafVector : List (Nat × LeafEntry) → List (Nat × Nat)
  | [] => []
  | (uid, e) :: rest =>
    (match e with
      | .single => [(uid, 0)]
      | .enumVariants idxs => (sortByKey id idxs).map fun ix => (uid, ix)) ++ leafVector rest

/-- Leaf-order relation of the claim: strictly increasing unique id, or equal
ids with strictly increasing variant index. -/
def leafLt (a b : Nat × Nat) : Prop :=
  a.1 < b.1 ∨ (a.1 = b.1 ∧ a.2 < b.2)

/-! ## Well-formedness predicates used by the theorems -/

/-- Keys strictly increasing and, for every recorded enumeration, a variant
set strictly increasing: the invariant of the collector state. -/
def VSorted : AccessedType → Prop
  | .enumeration vs => List.Chain' (· < ·) vs
  | .other => True

def AccSorted (acc : AccMap) : Prop :=
  List.Chain' (fun a b => a.1 < b.1) acc ∧ ∀ p ∈ acc, VSorted p.2

def isEnumTd : TypeDefD → Prop :=
  fun td => ∃ v, td = .enumeration v

/-- Registry well-formedness: when the first entry registered for an id is
an enumeration record, all entries for that id are enumeration records
(guaranteed by construction in `from_frame_metadata`; spec section 3.2). -/
def WfTI (ti : TypeInformation) : Prop :=
  ∀ i l, lookupTypes ti i = some l →
    ∀ v rest, l = TypeDefD.enumeration v :: rest → ∀ td ∈ rest, isEnumTd td

/-- Collector-state/registry consistency: an id recorded as `Other` does not
resolve to an enumeration. -/
def AccCons (ti : TypeInformation) (acc : AccMap) : Prop :=
  ∀ i, lookupAcc acc i = some .other →
    ¬ ∃ v rest, lookupTypes ti i = some (TypeDefD.enumeration v :: rest)

/-- Kind soundness of the collector state: an `Enumeration` record exists
only for an id whose registered entry list is headed by an enumeration
(variant records are created solely by `visit_variant`, which the decoder
dispatches to only for enumeration type definitions). -/
def AccKinds (ti : TypeInformation) (acc : AccMap) : Prop :=
  ∀ i vs, (i, AccessedType.enumeration vs) ∈ acc →
    ∃ v rest, lookupTypes ti i = some (TypeDefD.enumeration v :: rest)

/-! ## Basic lemmas about outcomes and the sorted map/set structures -/

theorem DOut.bind_ok {α β : Type} {a : DOut α} {f : α → DOut β} {c : β}
    (h : a.bind f = .ok c) : ∃ b, a = .ok b ∧ f b = .ok c := by
  cases a <;> simp [DOut.bind] at h ⊢ <;> exact h

theorem DOut.bind_panic {α β : Type} {a : DOut α} {f : α → DOut β} {m : String}
    (h : a.bind f = .panic m) :
    a = .panic m ∨ ∃ b, a = .ok b ∧ f b = .panic m := by
  cases a <;> simp [DOut.bind] at h ⊢ <;> exact h

theorem mapInsert_head {i : Nat} {v : AccessedType} {acc : AccMap} {y : Nat × AccessedType}
    (h : (mapInsert i v acc).head? = some y) : y = (i, v) ∨ acc.head? = some y := by
  match acc with
  | [] =>
    simp [mapInsert] at h
    exact Or.inl h.symm
  | (j, w) :: rest =>
    by_cases h1 : i < j
    · simp [mapInsert, h1] at h
      exact Or.inl h.symm
    · by_cases h2 : i = j
      · subst h2
        simp [mapInsert, h1] at h
        exact Or.inl h.symm
      · simp [mapInsert, h1, h2] at h
        exact Or.inr (by simp [h])

theorem chain_mapInsert {i : Nat} {v : AccessedType} {acc : AccMap}
    (h : List.Chain' (fun a b => a.1 < b.1) acc) :
    List.Chain' (fun a b => a.1 < b.1) (mapInsert i v acc) := by
  induction acc with
  | nil => simp [mapInsert]
  | cons p rest ih =>
    obtain ⟨j, w⟩ := p
    rw [List.chain'_cons'] at h
    obtain ⟨hhead, htail⟩ := h
    by_cases h1 : i < j
    · simp only [mapInsert, if_pos h1]
      rw [List.chain'_cons']
      exact ⟨fun y hy => by simp at hy; simp [← hy, h1],
        List.chain'_cons'.mpr ⟨hhead, htail⟩⟩
    · by_cases h2 : i = j
      · simp only [mapInsert, if_neg h1, if_pos h2]
        rw [List.chain'_cons']
        exact ⟨fun y hy => h2 ▸ hhead y hy, htail⟩
      · simp only [mapInsert, if_neg h1, if_neg h2]
        rw [List.chain'_cons']
        refine ⟨fun y hy => ?_, ih htail⟩
        rcases mapInsert_head hy with rfl | hy2
        · have : j < i := by omega
          simpa using this
        · exact hhead y hy2

theorem mem_mapInsert {p : Nat × AccessedType} {i : Nat} {v : AccessedType} {acc : AccMap}
    (h : p ∈ mapInsert i v acc) : p = (i, v) ∨ p ∈ acc := by
  induction acc with
  | nil => simp [mapInsert] at h; simp [h]
  | cons q rest ih =>
    obtain ⟨j, w⟩ := q
    by_cases h1 : i < j
    · simp only [mapInsert, if_pos h1] at h
      rcases List.mem_cons.mp h with h | h
      · simp [h]
      · simp [h]
    · by_cases h2 : i = j
      · subst h2
        simp only [mapInsert, if_neg h1, if_pos rfl] at h
        rcases List.mem_cons.mp h with h | h
        · simp [h]
        · simp [h]
      · simp only [mapInsert, if_neg h1, if_neg h2] at h
        rcases List.mem_cons.mp h with h | h
        · simp [h]
        · rcases ih h with h3 | h3 <;> simp [h3]

theorem setInsert_head {x : Nat} {vs : List Nat} {y : Nat}
    (h : (setInsert x vs).head? = some y) : y = x ∨ vs.head? = some y := by
  match vs with
  | [] => simp [setInsert] at h; simp [h]
  | z :: rest =>
    by_cases h1 : x < z
    · simp [setInsert, h1] at h; simp [h]
    · by_cases h2 : x = z <;> simp [setInsert, h1, h2] at h <;> simp [h]

theorem chain_setInsert {x : Nat} {vs : List Nat}
    (h : List.Chain' (· < ·) vs) : List.Chain' (· < ·) (setInsert x vs) := by
  induction vs with
  | nil => simp [setInsert]
  | cons z rest ih =>
    rw [List.chain'_cons'] at h
    obtain ⟨hhead, htail⟩ := h
    by_cases h1 : x < z
    · simp only [setInsert, if_pos h1]
      rw [List.chain'_cons']
      exact ⟨fun y hy => by simp at hy; omega,
        List.chain'_cons'.mpr ⟨hhead, htail⟩⟩
    · by_cases h2 : x = z
      · simp only [setInsert, if_neg h1, if_pos h2]
        exact List.chain'_cons'.mpr ⟨hhead, htail⟩
      · simp only [setInsert, if_neg h1, if_neg h2]
        rw [List.chain'_cons']
        refine ⟨fun y hy => ?_, ih htail⟩
        rcases setInsert_head hy with rfl | hy2
        · omega
        · exact hhead y hy2

theorem lookupAcc_mem {acc : AccMap} {i : Nat} {w : AccessedType}
    (h : lookupAcc acc i = some w) : (i, w) ∈ acc := by
  induction acc with
  | nil => simp [lookupAcc] at h
  | cons q rest ih =>
    obtain ⟨j, w2⟩ := q
    by_cases h1 : i = j
    · simp [lookupAcc, h1] at h; simp [h1, h]
    · simp [lookupAcc, h1] at h; simp [ih h]

theorem accSorted_mapInsert {i : Nat} {v : AccessedType} {acc : AccMap}
    (h : AccSorted acc) (hv : VSorted v) : AccSorted (mapInsert i v acc) := by
  refine ⟨chain_mapInsert h.1, fun p hp => ?_⟩
  rcases mem_mapInsert hp with rfl | hp2
  · exact hv
  · exact h.2 p hp2

theorem recordAccess_sorted {mode : Mode} {ty : TypeRefD} {msg : String}
    {acc acc2 : AccMap} (h : AccSorted acc)
    (hr : recordAccess mode ty msg acc = .ok acc2) : AccSorted acc2 := by
  cases mode with
  | skip => simp [recordAccess] at hr; simpa [← hr] using h
  | collect =>
    have hv : VSorted AccessedType.other := True.intro
    cases ty <;> simp [recordAccess, TypeRefD.id?] at hr <;>
      simpa [← hr] using accSorted_mapInsert h hv

theorem recordVariant_sorted {mode : Mode} {i idx : Nat} {acc acc2 : AccMap}
    (h : AccSorted acc) (hr : recordVariant mode i idx acc = .ok acc2) :
    AccSorted acc2 := by
  cases mode with
  | skip => simp [recordVariant] at hr; simpa [← hr] using h
  | collect =>
    simp only [recordVariant, accAddVariant] at hr
    rcases hl : lookupAcc acc i with _ | w
    · rw [hl] at hr
      simp at hr
      refine hr ▸ accSorted_mapInsert h ?_
      simp [VSorted, setInsert]
    · rw [hl] at hr
      cases w with
      | other => simp at hr
      | enumeration vs =>
        simp at hr
        refine hr ▸ accSorted_mapInsert h ?_
        have : VSorted (.enumeration vs) := h.2 _ (lookupAcc_mem hl)
        exact chain_setInsert this

/-- The decode loop preserves the collector-state sortedness invariant. -/
theorem decodeRun_sorted (ti : TypeInformation) :
    ∀ fuel jobs acc bytes acc2 rest, AccSorted acc →
      decodeRun ti fuel jobs acc bytes = .ok (acc2, rest) → AccSorted acc2 := by
  intro fuel
  induction fuel with
  | zero =>
    intro jobs acc bytes acc2 rest hs h
    cases jobs with
    | nil =>
      simp [decodeRun] at h
      exact h.1 ▸ hs
    | cons job jobs => simp [decodeRun] at h
  | succ fuel ih =>
    intro jobs acc bytes acc2 rest hs h
    cases jobs with
    | nil =>
      simp [decodeRun] at h
      exact h.1 ▸ hs
    | cons job jobs =>
      cases job with
      | rep mode ty n =>
        cases n with
        | zero =>
          simp only [decodeRun] at h
          exact ih _ _ _ _ _ hs h
        | succ n =>
          simp only [decodeRun] at h
          exact ih _ _ _ _ _ hs h
      | val mode ty =>
        cases ty
        case byId i =>
          rcases hl : lookupTypes ti i with _ | l
          · simp [decodeRun, hl] at h
          · cases l with
            | nil => simp [decodeRun, hl] at h
            | cons td tds =>
              cases td with
              | composite fs =>
                simp only [decodeRun, hl] at h
                obtain ⟨acc1, hrec, hrun⟩ := DOut.bind_ok h
                exact ih _ _ _ _ _ (recordAccess_sorted hs hrec) hrun
              | tuple ts =>
                simp only [decodeRun, hl] at h
                obtain ⟨acc1, hrec, hrun⟩ := DOut.bind_ok h
                exact ih _ _ _ _ _ (recordAccess_sorted hs hrec) hrun
              | enumeration v0 =>
                cases bytes with
                | nil => simp [decodeRun, hl] at h
                | cons idx bytes =>
                  simp only [decodeRun, hl] at h
                  obtain ⟨v, _, h2⟩ := DOut.bind_ok h
                  obtain ⟨acc1, hrec, hrun⟩ := DOut.bind_ok h2
                  exact ih _ _ _ _ _ (recordVariant_sorted hs hrec) hrun
              | sequence elemTy =>
                rcases hc : compactDecode bytes with _ | p
                · simp [decodeRun, hl, hc] at h
                · obtain ⟨n, bytes2⟩ := p
                  simp only [decodeRun, hl, hc] at h
                  obtain ⟨acc1, hrec, hrun⟩ := DOut.bind_ok h
                  have hs1 := recordAccess_sorted hs hrec
                  cases mode with
                  | collect =>
                    cases n with
                    | zero => exact ih _ _ _ _ _ hs1 hrun
                    | succ n => exact ih _ _ _ _ _ hs1 hrun
                  | skip => exact ih _ _ _ _ _ hs1 hrun
              | array elemTy len =>
                simp only [decodeRun, hl] at h
                obtain ⟨acc1, hrec, hrun⟩ := DOut.bind_ok h
                exact ih _ _ _ _ _ (recordAccess_sorted hs hrec) hrun
              | bitSequence nb lsb =>
                by_cases hnb : nb = 1 ∨ nb = 2 ∨ nb = 4 ∨ nb = 8
                · rcases hc : compactDecode bytes with _ | p
                  · simp [decodeRun, hl, hc, if_pos hnb] at h
                  · obtain ⟨n, bytes2⟩ := p
                    simp only [decodeRun, hl, hc, if_pos hnb] at h
                    obtain ⟨acc1, hrec, h2⟩ := DOut.bind_ok h
                    obtain ⟨bytes3, _, hrun⟩ := DOut.bind_ok h2
                    exact ih _ _ _ _ _ (recordAccess_sorted hs hrec) hrun
                · simp [decodeRun, hl, if_neg hnb] at h
        case void =>
          cases mode with
          | collect => simp [decodeRun, recordAccess, TypeRefD.id?, DOut.bind] at h
          | skip =>
            simp only [decodeRun, recordAccess] at h
            obtain ⟨acc1, hrec, hrun⟩ := DOut.bind_ok h
            simp at hrec
            exact ih _ _ _ _ _ (hrec ▸ hs) hrun
        all_goals
          simp only [decodeRun] at h
          obtain ⟨bytes2, _, hrun⟩ := DOut.bind_ok h
          exact ih _ _ _ _ _ hs hrun

theorem accSorted_nil : AccSorted [] := ⟨List.chain'_nil, by simp⟩

theorem decodeValue_sorted {ti : TypeInformation} {fuel : Nat} {mode : Mode}
    {ty : TypeRefD} {acc : AccMap} {bytes : List Nat} {r : AccMap × List Nat}
    (hs : AccSorted acc) (h : decodeValue ti fuel mode ty acc bytes = .ok r) :
    AccSorted r.1 := by
  obtain ⟨acc2, rest⟩ := r
  exact decodeRun_sorted ti fuel _ acc bytes acc2 rest hs h

theorem decodeExtras_sorted {ti : TypeInformation} {fuel : Nat} :
    ∀ {ses : List SignedExtensionMetadataD} {acc : AccMap} {bytes : List Nat}
      {r : AccMap × List Nat}, AccSorted acc →
      decodeExtras ti fuel ses acc bytes = .ok r → AccSorted r.1 := by
  intro ses
  induction ses with
  | nil =>
    intro acc bytes r hs h
    simp only [decodeExtras] at h
    cases h
    exact hs
  | cons se rest ih =>
    intro acc bytes r hs h
    simp only [decodeExtras] at h
    obtain ⟨r1, h1, h2⟩ := DOut.bind_ok h
    exact ih (decodeValue_sorted hs h1) h2

theorem decodeAdditional_sorted {ti : TypeInformation} {fuel : Nat} :
    ∀ {ses : List SignedExtensionMetadataD} {acc : AccMap} {bytes : List Nat}
      {r : AccMap × List Nat}, AccSorted acc →
      decodeAdditional ti fuel ses acc bytes = .ok r → AccSorted r.1 := by
  intro ses
  induction ses with
  | nil =>
    intro acc bytes r hs h
    simp only [decodeAdditional] at h
    cases h
    exact hs
  | cons se rest ih =>
    intro acc bytes r hs h
    simp only [decodeAdditional] at h
    obtain ⟨r1, h1, h2⟩ := DOut.bind_ok h
    exact ih (decodeValue_sorted hs h1) h2

theorem accToList_fst (p : Nat × AccessedType) :
    (match p.2 with
      | AccessedType.other => (p.1, ([] : List Nat))
      | AccessedType.enumeration vs => (p.1, vs)).1 = p.1 := by
  rcases p with ⟨i, w⟩
  cases w <;> rfl

theorem accToList_chain {acc : AccMap} (hs : AccSorted acc) :
    List.Chain' (fun a b => a.1 < b.1) (accToList acc) := by
  refine List.chain'_map_of_chain' _ (fun a b hab => ?_) hs.1
  rw [accToList_fst, accToList_fst]
  exact hab

theorem accToList_snd {acc : AccMap} (hs : AccSorted acc) :
    ∀ p ∈ accToList acc, List.Chain' (· < ·) p.2 := by
  intro p hp
  simp only [accToList, List.mem_map] at hp
  obtain ⟨q, hq, hqp⟩ := hp
  have hv := hs.2 q hq
  rcases q with ⟨i, w⟩
  cases w with
  | other => simp at hqp; simp [← hqp]
  | enumeration vs =>
    simp at hqp
    rw [← hqp]
    exact hv

theorem accKinds_nil {ti : TypeInformation} : AccKinds ti [] := by
  intro i vs h
  simp at h

theorem accKinds_insert_other {ti : TypeInformation} {acc : AccMap} {i : Nat}
    (hk : AccKinds ti acc) : AccKinds ti (mapInsert i .other acc) := by
  intro j vs hmem
  rcases mem_mapInsert hmem with heq | hold
  · simp at heq
  · exact hk j vs hold

theorem accKinds_insert_enum {ti : TypeInformation} {acc : AccMap} {i : Nat}
    {vs : List Nat} (hk : AccKinds ti acc)
    (henum : ∃ v rest, lookupTypes ti i = some (TypeDefD.enumeration v :: rest)) :
    AccKinds ti (mapInsert i (.enumeration vs) acc) := by
  intro j vs2 hmem
  rcases mem_mapInsert hmem with heq | hold
  · simp at heq
    exact heq.1 ▸ henum
  · exact hk j vs2 hold

theorem recordAccess_kinds {mode : Mode} {ty : TypeRefD} {msg : String}
    {acc acc2 : AccMap} {ti : TypeInformation} (hk : AccKinds ti acc)
    (hr : recordAccess mode ty msg acc = .ok acc2) : AccKinds ti acc2 := by
  cases mode with
  | skip => simp [recordAccess] at hr; exact hr ▸ hk
  | collect =>
    cases ty <;> simp [recordAccess, TypeRefD.id?] at hr <;>
      exact hr ▸ accKinds_insert_other hk

theorem recordVariant_kinds {mode : Mode} {i idx : Nat} {acc acc2 : AccMap}
    {ti : TypeInformation} (hk : AccKinds ti acc)
    (henum : ∃ v rest, lookupTypes ti i = some (TypeDefD.enumeration v :: rest))
    (hr : recordVariant mode i idx acc = .ok acc2) : AccKinds ti acc2 := by
  cases mode with
  | skip => simp [recordVariant] at hr; exact hr ▸ hk
  | collect =>
    simp only [recordVariant, accAddVariant] at hr
    rcases hl : lookupAcc acc i with _ | w
    · rw [hl] at hr
      simp at hr
      exact hr ▸ accKinds_insert_enum hk henum
    · rw [hl] at hr
      cases w with
      | other => simp at hr
      | enumeration vs =>
        simp at hr
        exact hr ▸ accKinds_insert_enum hk henum

/-- The decode loop preserves kind soundness of the collector state. -/
theorem decodeRun_kinds (ti : TypeInformation) :
    ∀ fuel jobs acc bytes acc2 rest, AccKinds ti acc →
      decodeRun ti fuel jobs acc bytes = .ok (acc2, rest) → AccKinds ti acc2 := by
  intro fuel
  induction fuel with
  | zero =>
    intro jobs acc bytes acc2 rest hk h
    cases jobs with
    | nil =>
      simp [decodeRun] at h
      exact h.1 ▸ hk
    | cons job jobs => simp [decodeRun] at h
  | succ fuel ih =>
    intro jobs acc bytes acc2 rest hk h
    cases jobs with
    | nil =>
      simp [decodeRun] at h
      exact h.1 ▸ hk
    | cons job jobs =>
      cases job with
      | rep mode ty n =>
        cases n with
        | zero =>
          simp only [decodeRun] at h
          exact ih _ _ _ _ _ hk h
        | succ n =>
          simp only [decodeRun] at h
          exact ih _ _ _ _ _ hk h
      | val mode ty =>
        cases ty
        case byId i =>
          rcases hl : lookupTypes ti i with _ | l
          · simp [decodeRun, hl] at h
          · cases l with
            | nil => simp [decodeRun, hl] at h
            | cons td tds =>
              cases td with
              | composite fs =>
                simp only [decodeRun, hl] at h
                obtain ⟨acc1, hrec, hrun⟩ := DOut.bind_ok h
                exact ih _ _ _ _ _ (recordAccess_kinds hk hrec) hrun
              | tuple ts =>
                simp only [decodeRun, hl] at h
                obtain ⟨acc1, hrec, hrun⟩ := DOut.bind_ok h
                exact ih _ _ _ _ _ (recordAccess_kinds hk hrec) hrun
              | enumeration v0 =>
                cases bytes with
                | nil => simp [decodeRun, hl] at h
                | cons idx bytes =>
                  simp only [decodeRun, hl] at h
                  obtain ⟨v, _, h2⟩ := DOut.bind_ok h
                  obtain ⟨acc1, hrec, hrun⟩ := DOut.bind_ok h2
                  exact ih _ _ _ _ _
                    (recordVariant_kinds hk ⟨v0, tds, hl⟩ hrec) hrun
              | sequence elemTy =>
                rcases hcd : compactDecode bytes with _ | p
                · simp [decodeRun, hl, hcd] at h
                · obtain ⟨n, bytes2⟩ := p
                  simp only [decodeRun, hl, hcd] at h
                  obtain ⟨acc1, hrec, hrun⟩ := DOut.bind_ok h
                  have hk1 := recordAccess_kinds hk hrec
                  cases mode with
                  | collect =>
                    cases n with
                    | zero => exact ih _ _ _ _ _ hk1 hrun
                    | succ n => exact ih _ _ _ _ _ hk1 hrun
                  | skip => exact ih _ _ _ _ _ hk1 hrun
              | array elemTy len =>
                simp only [decodeRun, hl] at h
                obtain ⟨acc1, hrec, hrun⟩ := DOut.bind_ok h
                exact ih _ _ _ _ _ (recordAccess_kinds hk hrec) hrun
              | bitSequence nb lsb =>
                by_cases hnb : nb = 1 ∨ nb = 2 ∨ nb = 4 ∨ nb = 8
                · rcases hcd : compactDecode bytes with _ | p
                  · simp [decodeRun, hl, hcd, if_pos hnb] at h
                  · obtain ⟨n, bytes2⟩ := p
                    simp only [decodeRun, hl, hcd, if_pos hnb] at h
                    obtain ⟨acc1, hrec, h2⟩ := DOut.bind_ok h
                    obtain ⟨bytes3, _, hrun⟩ := DOut.bind_ok h2
                    exact ih _ _ _ _ _ (recordAccess_kinds hk hrec) hrun
                · simp [decodeRun, hl, if_neg hnb] at h
        case void =>
          cases mode with
          | collect => simp [decodeRun, recordAccess, TypeRefD.id?, DOut.bind] at h
          | skip =>
            simp only [decodeRun, recordAccess] at h
            obtain ⟨acc1, hrec, hrun⟩ := DOut.bind_ok h
            simp at hrec
            exact ih _ _ _ _ _ (hrec ▸ hk) hrun
        all_goals
          simp only [decodeRun] at h
          obtain ⟨bytes2, _, hrun⟩ := DOut.bind_ok h
          exact ih _ _ _ _ _ hk hrun

theorem decodeValue_kinds {ti : TypeInformation} {fuel : Nat} {mode : Mode}
    {ty : TypeRefD} {acc : AccMap} {bytes : List Nat} {r : AccMap × List Nat}
    (hk : AccKinds ti acc) (h : decodeValue ti fuel mode ty acc bytes = .ok r) :
    AccKinds ti r.1 := by
  obtain ⟨acc2, rest⟩ := r
  exact decodeRun_kinds ti fuel _ acc bytes acc2 rest hk h

theorem decodeExtras_kinds {ti : TypeInformation} {fuel : Nat} :
    ∀ {ses : List SignedExtensionMetadataD} {acc : AccMap} {bytes : List Nat}
      {r : AccMap × List Nat}, AccKinds ti acc →
      decodeExtras ti fuel ses acc bytes = .ok r → AccKinds ti r.1 := by
  intro ses
  induction ses with
  | nil =>
    intro acc bytes r hk h
    simp only [decodeExtras] at h
    cases h
    exact hk
  | cons se rest ih =>
    intro acc bytes r hk h
    simp only [decodeExtras] at h
    obtain ⟨r1, h1, h2⟩ := DOut.bind_ok h
    exact ih (decodeValue_kinds hk h1) h2

theorem decodeAdditional_kinds {ti : TypeInformation} {fuel : Nat} :
    ∀ {ses : List SignedExtensionMetadataD} {acc : AccMap} {bytes : List Nat}
      {r : AccMap × List Nat}, AccKinds ti acc →
      decodeAdditional ti fuel ses acc bytes = .ok r → AccKinds ti r.1 := by
  intro ses
  induction ses with
  | nil =>
    intro acc bytes r hk h
    simp only [decodeAdditional] at h
    cases h
    exact hk
  | cons se rest ih =>
    intro acc bytes r hk h
    simp only [decodeAdditional] at h
    obtain ⟨r1, h1, h2⟩ := DOut.bind_ok h
    exact ih (decodeValue_kinds hk h1) h2

theorem accToList_nonenum {ti : TypeInformation} {acc : AccMap}
    (hk : AccKinds ti acc) :
    ∀ p ∈ accToList acc,
      (∀ v rest, lookupTypes ti p.1 ≠ some (TypeDefD.enumeration v :: rest)) →
        p.2 = [] := by
  intro p hp hno
  simp only [accToList, List.mem_map] at hp
  obtain ⟨q, hq, hqp⟩ := hp
  rcases q with ⟨i, w⟩
  cases w with
  | other => simp at hqp; simp [← hqp]
  | enumeration vs =>
    simp at hqp
    obtain ⟨v, rest, hl⟩ := hk i vs hq
    rw [← hqp] at hno
    exact absurd hl (hno v rest)

/-- C10: for every successful call, the list returned by
`decode_extrinsic_and_collect_type_ids` is strictly increasing in type id,
every variant-index list in an entry is strictly increasing (hence its
indices are distinct), and every entry whose type id does not resolve to an
enumeration carries an empty variant list. -/
theorem c10_output_sorted (fuel : Nat) (ext : List Nat) (add : Option (List Nat))
    (ti : TypeInformation) (l : List (Nat × List Nat))
    (h : decodeExtrinsicAndCollectTypeIds fuel ext add ti = .ok l) :
    List.Chain' (fun a b => a.1 < b.1) l ∧
      (∀ p ∈ l, List.Chain' (· < ·) p.2) ∧
      (∀ p ∈ l,
        (∀ v rest, lookupTypes ti p.1 ≠ some (TypeDefD.enumeration v :: rest)) →
          p.2 = []) := by
  unfold decodeExtrinsicAndCollectTypeIds at h
  rcases hc : compactDecode ext with _ | p
  · rw [hc] at h; simp at h
  · obtain ⟨len, r1⟩ := p
    rw [hc] at h
    cases r1 with
    | nil => simp at h
    | cons v r2 =>
      simp only at h
      by_cases hv : v &&& 127 ≠ 4
      · rw [if_pos hv] at h; simp at h
      · rw [if_neg hv] at h
        obtain ⟨r5, hsig, h2⟩ := DOut.bind_ok h
        have hs5 : AccSorted r5.1 := by
          by_cases hsgn : v &&& 128 ≠ 0
          · rw [if_pos hsgn] at hsig
            obtain ⟨r3, h3, h4⟩ := DOut.bind_ok hsig
            obtain ⟨r4, h5, h6⟩ := DOut.bind_ok h4
            exact decodeExtras_sorted
              (decodeValue_sorted (decodeValue_sorted accSorted_nil h3) h5) h6
          · rw [if_neg hsgn] at hsig
            cases hsig
            exact accSorted_nil
        have hk5 : AccKinds ti r5.1 := by
          by_cases hsgn : v &&& 128 ≠ 0
          · rw [if_pos hsgn] at hsig
            obtain ⟨r3, h3, h4⟩ := DOut.bind_ok hsig
            obtain ⟨r4, h5, h6⟩ := DOut.bind_ok h4
            exact decodeExtras_kinds
              (decodeValue_kinds (decodeValue_kinds accKinds_nil h3) h5) h6
          · rw [if_neg hsgn] at hsig
            cases hsig
            exact accKinds_nil
        obtain ⟨r6, h7, h8⟩ := DOut.bind_ok h2
        have hs6 : AccSorted r6.1 := decodeValue_sorted hs5 h7
        have hk6 : AccKinds ti r6.1 := decodeValue_kinds hk5 h7
        obtain ⟨acc, h9, h10⟩ := DOut.bind_ok h8
        have hsacc : AccSorted acc := by
          cases add with
          | none =>
            simp only at h9
            cases h9
            exact hs6
          | some addBytes =>
            simp only at h9
            obtain ⟨r7, h11, h12⟩ := DOut.bind_ok h9
            have := decodeAdditional_sorted hs6 h11
            cases h12
            exact this
        have hkacc : AccKinds ti acc := by
          cases add with
          | none =>
            simp only at h9
            cases h9
            exact hk6
          | some addBytes =>
            simp only at h9
            obtain ⟨r7, h11, h12⟩ := DOut.bind_ok h9
            have := decodeAdditional_kinds hk6 h11
            cases h12
            exact this
        cases h10
        exact ⟨accToList_chain hsacc, accToList_snd hsacc, accToList_nonenum hkacc⟩

def tiC2 : TypeInformation :=
  { types := [(0, [.sequence (.byId 1)]),
              (1, [.enumeration ⟨"A", [], 0⟩, .enumeration ⟨"B", [], 1⟩])]
    extrinsicMetadata :=
      { version := 4, addressTy := .void, callTy := .byId 0,
        signatureTy := .void, extraTy := .void, signedExtensions := [] } }

theorem c10_output_sorted_witness :
    List.Chain' (fun (a b : Nat × List Nat) => a.1 < b.1) [(0, []), (1, [0])] ∧
      (∀ p ∈ [((0 : Nat), ([] : List Nat)), (1, [0])], List.Chain' (· < ·) p.2) ∧
      (∀ p ∈ [((0 : Nat), ([] : List Nat)), (1, [0])],
        (∀ v rest,
          lookupTypes tiC2 p.1 ≠ some (TypeDefD.enumeration v :: rest)) →
          p.2 = []) :=
  c10_output_sorted 20 [16, 4, 8, 0, 1] none tiC2 [(0, []), (1, [0])] (by decide)

/-- C7: after the compact length prefix the driver reads exactly one version
byte; bits 0–6 different from 4 yield the unsupported-version error (no type
is recorded, nothing further is decoded), and otherwise decoding proceeds
with bit 7 as the signed flag: the address, signature and signed-extension
payloads are decoded exactly when bit 7 is set. -/
theorem c7_version_byte (fuel : Nat) (ext : List Nat) (add : Option (List Nat))
    (ti : TypeInformation) (len v : Nat) (r2 : List Nat)
    (hc : compactDecode ext = some (len, v :: r2)) :
    (v &&& 127 ≠ 4 →
      decodeExtrinsicAndCollectTypeIds fuel ext add ti =
        .err "Invalid transaction version") ∧
    (v &&& 127 = 4 →
      decodeExtrinsicAndCollectTypeIds fuel ext add ti =
        (if v &&& 128 ≠ 0 then
            (decodeValue ti fuel .collect ti.extrinsicMetadata.addressTy [] r2).bind fun r =>
              (decodeValue ti fuel .collect ti.extrinsicMetadata.signatureTy r.1 r.2).bind
                fun r => decodeExtras ti fuel ti.extrinsicMetadata.signedExtensions r.1 r.2
          else .ok ([], r2)).bind fun r =>
          (decodeValue ti fuel .collect ti.extrinsicMetadata.callTy r.1 r.2).bind fun r =>
            (match add with
              | none => (.ok r.1 : DOut AccMap)
              | some addBytes =>
                (decodeAdditional ti fuel ti.extrinsicMetadata.signedExtensions
                    r.1 addBytes).bind fun r => .ok r.1).bind fun acc =>
              .ok (accToList acc)) := by
  constructor
  · intro hne
    unfold decodeExtrinsicAndCollectTypeIds
    rw [hc]
    simp only
    rw [if_pos hne]
  · intro heq
    unfold decodeExtrinsicAndCollectTypeIds
    rw [hc]
    simp only
    rw [if_neg (by simp [heq])]

def tiU8 : TypeInformation :=
  { types := []
    extrinsicMetadata :=
      { version := 4, addressTy := .void, callTy := .u8,
        signatureTy := .void, extraTy := .void, signedExtensions := [] } }

theorem c7_version_byte_witness :
    decodeExtrinsicAndCollectTypeIds 5 [0, 5, 9] none tiU8 =
      .err "Invalid transaction version" :=
  (c7_version_byte 5 [0, 5, 9] none tiU8 0 5 [9] (by decide)).1 (by decide)

/-- C3 counterexample: an extrinsic whose length prefix claims 10 bytes
while only 2 remain after the prefix still decodes successfully, so the
prefix is not validated against the remaining byte count. -/
theorem c3_cex :
    decodeExtrinsicAndCollectTypeIds 5 [40, 4, 7] none tiU8 = .ok [] ∧
      compactDecode [40, 4, 7] = some (10, [4, 7]) ∧ (10 : Nat) ≠ [4, 7].length := by
  refine ⟨by decide, by decide, by decide⟩

/-- C3 (amended): the driver reads the compact length prefix and discards
it; the decode result depends only on the bytes following the prefix, never
on the parsed length value. -/
theorem c3_length_prefix_ignored (fuel : Nat) (e1 e2 : List Nat) (n1 n2 : Nat)
    (rest : List Nat) (add : Option (List Nat)) (ti : TypeInformation)
    (h1 : compactDecode e1 = some (n1, rest)) (h2 : compactDecode e2 = some (n2, rest)) :
    decodeExtrinsicAndCollectTypeIds fuel e1 add ti =
      decodeExtrinsicAndCollectTypeIds fuel e2 add ti := by
  unfold decodeExtrinsicAndCollectTypeIds
  rw [h1, h2]

theorem c3_length_prefix_ignored_witness :
    decodeExtrinsicAndCollectTypeIds 5 [40, 4, 7] none tiU8 =
      decodeExtrinsicAndCollectTypeIds 5 [0, 4, 7] none tiU8 :=
  c3_length_prefix_ignored 5 [40, 4, 7] [0, 4, 7] 10 0 [4, 7] none tiU8
    (by decide) (by decide)

def seC1 : SignedExtensionMetadataD :=
  { identifier := "TestExtension", includedInExtrinsic := .u8,
    includedInSignedData := .byId 0 }

def tiC1 : TypeInformation :=
  { types := [(0, [.enumeration ⟨"A", [], 0⟩])]
    extrinsicMetadata :=
      { version := 4, addressTy := .void, callTy := .u8,
        signatureTy := .void, extraTy := .void, signedExtensions := [seC1] } }

/-- C1: with `additional_signed` supplied, the driver decodes the signed
extension type `included_in_extrinsic` (here `u8`, recording nothing)
against those bytes instead of its `included_in_signed_data` type (here an
enumeration): the run returns no accessed types, while decoding the
`included_in_signed_data` type against the same bytes records the
enumeration id with its taken variant. -/
theorem c1_additional_signed_bug :
    decodeExtrinsicAndCollectTypeIds 10 [4, 4, 9] (some [0]) tiC1 = .ok [] ∧
      decodeValue tiC1 10 .collect seC1.includedInSignedData [] [0] =
        .ok ([(0, .enumeration [0])], []) := by
  refine ⟨by decide, by decide⟩

/-- C2: a two-element sequence of a two-variant enumeration, where each
element takes a different variant, yields an access set containing only the
variant of the first element only (the collector sees only the first sequence
element); observing every element, as the spec requires, records both
variants. -/
theorem c2_sequence_bug :
    decodeExtrinsicAndCollectTypeIds 20 [16, 4, 8, 0, 1] none tiC2 =
      .ok [(0, []), (1, [0])] ∧
      decodeRun tiC2 20 [.rep .collect (.byId 1) 2] [(0, .other)] [0, 1] =
        .ok ([(0, .other), (1, .enumeration [0, 1])], []) := by
  refine ⟨by decide, by decide⟩

def tiC9 : TypeInformation :=
  { types := [(0, [.composite [⟨none, .void⟩]])]
    extrinsicMetadata :=
      { version := 4, addressTy := .void, callTy := .byId 0,
        signatureTy := .void, extraTy := .void, signedExtensions := [] } }

/-- C9 counterexample: a decode path reaching a `Void` TypeRef (a composite
with a void-typed field) panics in `visit_composite` on
`type_id.id().expect(...)`, refuting the claim that the collector never
panics. -/
theorem c9_cex :
    decodeExtrinsicAndCollectTypeIds 10 [0, 4] none tiC9 =
      .panic "Composite is always referenced by id; qed" := by decide

/-! Support lemmas for the panic classification of the decode loop. -/

theorem dropBytes_no_panic {n : Nat} {bytes : List Nat} {m : String} :
    dropBytes n bytes ≠ .panic m := by
  unfold dropBytes
  split <;> simp

theorem decodePrimBytes_no_panic {t : TypeRefD} {bytes : List Nat} {m : String} :
    decodePrimBytes t bytes ≠ .panic m := by
  have hcr : ∀ bound bs, decodePrimBytes.compactRange bound bs ≠ .panic m := by
    intro bound bs
    unfold decodePrimBytes.compactRange
    rcases compactDecode bs with _ | p
    · simp
    · simp only
      split <;> simp
  cases t
  all_goals simp only [decodePrimBytes]
  all_goals try apply dropBytes_no_panic
  all_goals try apply hcr
  case byId => simp
  case void => simp
  all_goals
    intro h
    split at h <;>
      first
      | simp at h
      | (split at h <;> simp at h)
      | (simp only [dropBytes] at h
         split at h <;> simp at h)

theorem findVariant_no_panic {l : List TypeDefD} (he : ∀ td ∈ l, isEnumTd td) :
    ∀ idx m, findVariant l idx ≠ .panic m := by
  induction l with
  | nil => intro idx m; simp [findVariant]
  | cons td rest ih =>
    intro idx m
    obtain ⟨v, rfl⟩ := he td (by simp)
    simp only [findVariant]
    split
    · simp
    · exact ih (fun t ht => he t (by simp [ht])) idx m

theorem lookupAcc_mapInsert {acc : AccMap} {i k : Nat} {v w : AccessedType}
    (h : lookupAcc (mapInsert i v acc) k = some w) :
    (k = i ∧ w = v) ∨ lookupAcc acc k = some w := by
  induction acc with
  | nil =>
    simp only [mapInsert, lookupAcc] at h
    split at h
    next hki => simp at h; exact Or.inl ⟨hki, h.symm⟩
    next => simp at h
  | cons q rest ih =>
    obtain ⟨j, w2⟩ := q
    by_cases h1 : i < j
    · simp only [mapInsert, if_pos h1, lookupAcc] at h
      split at h
      · simp at h; tauto
      · simp [lookupAcc]
        right
        exact h
    · by_cases h2 : i = j
      · subst h2
        simp only [mapInsert, if_neg h1, if_pos rfl, lookupAcc] at h
        split at h
        · simp at h; tauto
        · simp [lookupAcc, *]
      · simp only [mapInsert, if_neg h1, if_neg h2, lookupAcc] at h
        by_cases h3 : k = j
        · subst h3
          rw [if_pos rfl] at h
          simp [lookupAcc, h]
        · rw [if_neg h3] at h
          rcases ih h with h4 | h4
          · tauto
          · simp [lookupAcc, if_neg h3, h4]

theorem accCons_insert_other {ti : TypeInformation} {acc : AccMap} {i : Nat}
    (h : AccCons ti acc)
    (hne : ¬ ∃ v rest, lookupTypes ti i = some (TypeDefD.enumeration v :: rest)) :
    AccCons ti (mapInsert i .other acc) := by
  intro k hk
  rcases lookupAcc_mapInsert hk with ⟨rfl, _⟩ | hold
  · exact hne
  · exact h k hold

theorem accCons_insert_enum {ti : TypeInformation} {acc : AccMap} {i : Nat}
    {vs : List Nat} (h : AccCons ti acc) :
    AccCons ti (mapInsert i (.enumeration vs) acc) := by
  intro k hk
  rcases lookupAcc_mapInsert hk with ⟨rfl, habs⟩ | hold
  · exact absurd habs (by simp)
  · exact h k hold

theorem recordAccess_class {mode : Mode} {i : Nat} {msg : String}
    {acc : AccMap} {ti : TypeInformation} (hc : AccCons ti acc)
    (hne : ¬ ∃ v rest, lookupTypes ti i = some (TypeDefD.enumeration v :: rest)) :
    ∀ acc2, recordAccess mode (.byId i) msg acc = .ok acc2 → AccCons ti acc2 := by
  intro acc2 h
  cases mode with
  | skip => simp [recordAccess] at h; exact h ▸ hc
  | collect =>
    simp [recordAccess, TypeRefD.id?] at h
    exact h ▸ accCons_insert_other hc hne

theorem recordAccess_byId_no_panic {mode : Mode} {i : Nat} {msg m : String}
    {acc : AccMap} : recordAccess mode (.byId i) msg acc ≠ .panic m := by
  cases mode <;> simp [recordAccess, TypeRefD.id?]

theorem recordVariant_class {mode : Mode} {i idx : Nat} {acc : AccMap}
    {ti : TypeInformation} (hc : AccCons ti acc)
    (henum : ∃ v rest, lookupTypes ti i = some (TypeDefD.enumeration v :: rest)) :
    (∀ m, recordVariant mode i idx acc ≠ .panic m) ∧
      (∀ acc2, recordVariant mode i idx acc = .ok acc2 → AccCons ti acc2) := by
  cases mode with
  | skip =>
    refine ⟨by simp [recordVariant], fun acc2 h => ?_⟩
    simp [recordVariant] at h
    exact h ▸ hc
  | collect =>
    have hno : lookupAcc acc i ≠ some .other := by
      intro habs
      exact hc i habs henum
    simp only [recordVariant, accAddVariant]
    rcases hl : lookupAcc acc i with _ | w
    · refine ⟨by simp, fun acc2 h => ?_⟩
      simp at h
      exact h ▸ accCons_insert_enum hc
    · cases w with
      | other => exact absurd hl hno
      | enumeration vs =>
        refine ⟨by simp, fun acc2 h => ?_⟩
        simp at h
        exact h ▸ accCons_insert_enum hc

/-- Panic classification of the decode loop: under a kind-consistent
registry, the only panic the collector can hit is the
`visit_composite` expect on a `Void` TypeRef; in particular `add_variant` is
never invoked on an entry previously recorded as non-enumeration, and the
`Sequence`/`Tuple`/`Array`/`Enumeration`/`BitSequence` expects never fire. -/
theorem decodeRun_panic_class (ti : TypeInformation) (hwf : WfTI ti) :
    ∀ fuel jobs acc bytes, AccCons ti acc →
      (∀ m, decodeRun ti fuel jobs acc bytes = .panic m →
        m = "Composite is always referenced by id; qed") ∧
      (∀ acc2 rest, decodeRun ti fuel jobs acc bytes = .ok (acc2, rest) →
        AccCons ti acc2) := by
  intro fuel
  induction fuel with
  | zero =>
    intro jobs acc bytes hc
    cases jobs with
    | nil =>
      refine ⟨fun m h => by simp [decodeRun] at h, fun acc2 rest h => ?_⟩
      simp [decodeRun] at h
      exact h.1 ▸ hc
    | cons job jobs =>
      exact ⟨fun m h => by simp [decodeRun] at h, fun acc2 rest h => by simp [decodeRun] at h⟩
  | succ fuel ih =>
    intro jobs acc bytes hc
    cases jobs with
    | nil =>
      refine ⟨fun m h => by simp [decodeRun] at h, fun acc2 rest h => ?_⟩
      simp [decodeRun] at h
      exact h.1 ▸ hc
    | cons job jobs =>
      cases job with
      | rep mode ty n =>
        cases n with
        | zero =>
          simp only [decodeRun]
          exact ih _ _ _ hc
        | succ n =>
          simp only [decodeRun]
          exact ih _ _ _ hc
      | val mode ty =>
        cases ty
        case byId i =>
          rcases hl : lookupTypes ti i with _ | l
          · simp only [decodeRun, hl]
            exact ⟨fun m h => by simp at h, fun acc2 rest h => by simp at h⟩
          · cases l with
            | nil =>
              simp only [decodeRun, hl]
              exact ⟨fun m h => by simp at h, fun acc2 rest h => by simp at h⟩
            | cons td tds =>
              cases td with
              | composite fs =>
                have hne : ¬ ∃ v rest,
                    lookupTypes ti i = some (TypeDefD.enumeration v :: rest) := by
                  rintro ⟨v, rest, habs⟩
                  rw [hl] at habs
                  simp at habs
                simp only [decodeRun, hl]
                constructor
                · intro m h
                  rcases DOut.bind_panic h with h2 | ⟨acc1, hrec, hrun⟩
                  · exact absurd h2 recordAccess_byId_no_panic
                  · exact (ih _ _ _ (recordAccess_class hc hne _ hrec)).1 m hrun
                · intro acc2 rest h
                  obtain ⟨acc1, hrec, hrun⟩ := DOut.bind_ok h
                  exact (ih _ _ _ (recordAccess_class hc hne _ hrec)).2 _ _ hrun
              | tuple ts =>
                have hne : ¬ ∃ v rest,
                    lookupTypes ti i = some (TypeDefD.enumeration v :: rest) := by
                  rintro ⟨v, rest, habs⟩
                  rw [hl] at habs
                  simp at habs
                simp only [decodeRun, hl]
                constructor
                · intro m h
                  rcases DOut.bind_panic h with h2 | ⟨acc1, hrec, hrun⟩
                  · exact absurd h2 recordAccess_byId_no_panic
                  · exact (ih _ _ _ (recordAccess_class hc hne _ hrec)).1 m hrun
                · intro acc2 rest h
                  obtain ⟨acc1, hrec, hrun⟩ := DOut.bind_ok h
                  exact (ih _ _ _ (recordAccess_class hc hne _ hrec)).2 _ _ hrun
              | enumeration v0 =>
                have henum : ∃ v rest,
                    lookupTypes ti i = some (TypeDefD.enumeration v :: rest) :=
                  ⟨v0, tds, hl⟩
                have hall : ∀ td ∈ TypeDefD.enumeration v0 :: tds, isEnumTd td := by
                  intro td htd
                  rcases List.mem_cons.mp htd with rfl | htd2
                  · exact ⟨v0, rfl⟩
                  · exact hwf i _ hl v0 tds rfl td htd2
                cases bytes with
                | nil =>
                  simp only [decodeRun, hl]
                  exact ⟨fun m h => by simp at h, fun acc2 rest h => by simp at h⟩
                | cons idx bytes =>
                  simp only [decodeRun, hl]
                  have hrv := @recordVariant_class mode i idx acc ti hc henum
                  constructor
                  · intro m h
                    rcases DOut.bind_panic h with h2 | ⟨v, hfv, h3⟩
                    · exact absurd h2 (findVariant_no_panic hall idx m)
                    · rcases DOut.bind_panic h3 with h4 | ⟨acc1, hrec, hrun⟩
                      · exact absurd h4 (hrv.1 m)
                      · exact (ih _ _ _ (hrv.2 _ hrec)).1 m hrun
                  · intro acc2 rest h
                    obtain ⟨v, hfv, h3⟩ := DOut.bind_ok h
                    obtain ⟨acc1, hrec, hrun⟩ := DOut.bind_ok h3
                    exact (ih _ _ _ (hrv.2 _ hrec)).2 _ _ hrun
              | sequence elemTy =>
                have hne : ¬ ∃ v rest,
                    lookupTypes ti i = some (TypeDefD.enumeration v :: rest) := by
                  rintro ⟨v, rest, habs⟩
                  rw [hl] at habs
                  simp at habs
                rcases hcd : compactDecode bytes with _ | p
                · simp only [decodeRun, hl, hcd]
                  exact ⟨fun m h => by simp at h, fun acc2 rest h => by simp at h⟩
                · obtain ⟨n, bytes2⟩ := p
                  simp only [decodeRun, hl, hcd]
                  constructor
                  · intro m h
                    rcases DOut.bind_panic h with h2 | ⟨acc1, hrec, hrun⟩
                    · exact absurd h2 recordAccess_byId_no_panic
                    · have hc1 := recordAccess_class hc hne _ hrec
                      cases mode with
                      | collect =>
                        cases n with
                        | zero => exact (ih _ _ _ hc1).1 m hrun
                        | succ n => exact (ih _ _ _ hc1).1 m hrun
                      | skip => exact (ih _ _ _ hc1).1 m hrun
                  · intro acc2 rest h
                    obtain ⟨acc1, hrec, hrun⟩ := DOut.bind_ok h
                    have hc1 := recordAccess_class hc hne _ hrec
                    cases mode with
                    | collect =>
                      cases n with
                      | zero => exact (ih _ _ _ hc1).2 _ _ hrun
                      | succ n => exact (ih _ _ _ hc1).2 _ _ hrun
                    | skip => exact (ih _ _ _ hc1).2 _ _ hrun
              | array elemTy len =>
                have hne : ¬ ∃ v rest,
                    lookupTypes ti i = some (TypeDefD.enumeration v :: rest) := by
                  rintro ⟨v, rest, habs⟩
                  rw [hl] at habs
                  simp at habs
                simp only [decodeRun, hl]
                constructor
                · intro m h
                  rcases DOut.bind_panic h with h2 | ⟨acc1, hrec, hrun⟩
                  · exact absurd h2 recordAccess_byId_no_panic
                  · exact (ih _ _ _ (recordAccess_class hc hne _ hrec)).1 m hrun
                · intro acc2 rest h
                  obtain ⟨acc1, hrec, hrun⟩ := DOut.bind_ok h
                  exact (ih _ _ _ (recordAccess_class hc hne _ hrec)).2 _ _ hrun
              | bitSequence nb lsb =>
                have hne : ¬ ∃ v rest,
                    lookupTypes ti i = some (TypeDefD.enumeration v :: rest) := by
                  rintro ⟨v, rest, habs⟩
                  rw [hl] at habs
                  simp at habs
                by_cases hnb : nb = 1 ∨ nb = 2 ∨ nb = 4 ∨ nb = 8
                · rcases hcd : compactDecode bytes with _ | p
                  · simp only [decodeRun, hl, hcd, if_pos hnb]
                    exact ⟨fun m h => by simp at h, fun acc2 rest h => by simp at h⟩
                  · obtain ⟨n, bytes2⟩ := p
                    simp only [decodeRun, hl, hcd, if_pos hnb]
                    constructor
                    · intro m h
                      rcases DOut.bind_panic h with h2 | ⟨acc1, hrec, h3⟩
                      · exact absurd h2 recordAccess_byId_no_panic
                      · rcases DOut.bind_panic h3 with h4 | ⟨bytes3, hdp, hrun⟩
                        · exact absurd h4 dropBytes_no_panic
                        · exact (ih _ _ _ (recordAccess_class hc hne _ hrec)).1 m hrun
                    · intro acc2 rest h
                      obtain ⟨acc1, hrec, h3⟩ := DOut.bind_ok h
                      obtain ⟨bytes3, hdp, hrun⟩ := DOut.bind_ok h3
                      exact (ih _ _ _ (recordAccess_class hc hne _ hrec)).2 _ _ hrun
                · simp only [decodeRun, hl, if_neg hnb]
                  exact ⟨fun m h => by simp at h, fun acc2 rest h => by simp at h⟩
        case void =>
          cases mode with
          | collect =>
            simp only [decodeRun, recordAccess, TypeRefD.id?]
            exact ⟨fun m h => by simp [DOut.bind] at h; exact h.symm,
              fun acc2 rest h => by simp [DOut.bind] at h⟩
          | skip =>
            simp only [decodeRun, recordAccess, DOut.bind]
            exact ih _ _ _ hc
        all_goals
          simp only [decodeRun]
          refine ⟨fun m h => ?_, fun acc2 rest h => ?_⟩
          · rcases DOut.bind_panic h with h2 | ⟨bytes2, hdp, hrun⟩
            · exact absurd h2 decodePrimBytes_no_panic
            · exact (ih _ _ _ hc).1 m hrun
          · obtain ⟨bytes2, hdp, hrun⟩ := DOut.bind_ok h
            exact (ih _ _ _ hc).2 _ _ hrun

theorem accCons_nil {ti : TypeInformation} : AccCons ti [] := by
  intro i h
  simp [lookupAcc] at h

theorem decodeValue_panic_class {ti : TypeInformation} (hwf : WfTI ti) {fuel : Nat}
    {mode : Mode} {ty : TypeRefD} {acc : AccMap} {bytes : List Nat}
    (hc : AccCons ti acc) :
    (∀ m, decodeValue ti fuel mode ty acc bytes = .panic m →
      m = "Composite is always referenced by id; qed") ∧
    (∀ r, decodeValue ti fuel mode ty acc bytes = .ok r → AccCons ti r.1) := by
  have h := decodeRun_panic_class ti hwf fuel [.val mode ty] acc bytes hc
  exact ⟨h.1, fun r hr => h.2 r.1 r.2 hr⟩

theorem decodeExtras_panic_class {ti : TypeInformation} (hwf : WfTI ti) {fuel : Nat} :
    ∀ {ses : List SignedExtensionMetadataD} {acc : AccMap} {bytes : List Nat},
      AccCons ti acc →
      (∀ m, decodeExtras ti fuel ses acc bytes = .panic m →
        m = "Composite is always referenced by id; qed") ∧
      (∀ r, decodeExtras ti fuel ses acc bytes = .ok r → AccCons ti r.1) := by
  intro ses
  induction ses with
  | nil =>
    intro acc bytes hc
    refine ⟨fun m h => by simp [decodeExtras] at h, fun r h => ?_⟩
    simp only [decodeExtras] at h
    cases h
    exact hc
  | cons se rest ih =>
    intro acc bytes hc
    constructor
    · intro m h
      simp only [decodeExtras] at h
      rcases DOut.bind_panic h with h2 | ⟨r1, h3, h4⟩
      · exact (decodeValue_panic_class hwf hc).1 m h2
      · exact (ih ((decodeValue_panic_class hwf hc).2 r1 h3)).1 m h4
    · intro r h
      simp only [decodeExtras] at h
      obtain ⟨r1, h3, h4⟩ := DOut.bind_ok h
      exact (ih ((decodeValue_panic_class hwf hc).2 r1 h3)).2 r h4

theorem decodeAdditional_panic_class {ti : TypeInformation} (hwf : WfTI ti) {fuel : Nat} :
    ∀ {ses : List SignedExtensionMetadataD} {acc : AccMap} {bytes : List Nat},
      AccCons ti acc →
      (∀ m, decodeAdditional ti fuel ses acc bytes = .panic m →
        m = "Composite is always referenced by id; qed") ∧
      (∀ r, decodeAdditional ti fuel ses acc bytes = .ok r → AccCons ti r.1) := by
  intro ses
  induction ses with
  | nil =>
    intro acc bytes hc
    refine ⟨fun m h => by simp [decodeAdditional] at h, fun r h => ?_⟩
    simp only [decodeAdditional] at h
    cases h
    exact hc
  | cons se rest ih =>
    intro acc bytes hc
    constructor
    · intro m h
      simp only [decodeAdditional] at h
      rcases DOut.bind_panic h with h2 | ⟨r1, h3, h4⟩
      · exact (decodeValue_panic_class hwf hc).1 m h2
      · exact (ih ((decodeValue_panic_class hwf hc).2 r1 h3)).1 m h4
    · intro r h
      simp only [decodeAdditional] at h
      obtain ⟨r1, h3, h4⟩ := DOut.bind_ok h
      exact (ih ((decodeValue_panic_class hwf hc).2 r1 h3)).2 r h4

/-- C9 (amended): with a kind-consistent registry, the only panic the driver
can hit is the `visit_composite` `.id().expect(...)` on a `Void` TypeRef;
every other access the collector records is through a `ById` reference, and
`add_variant` is never invoked on an entry previously recorded as
non-enumeration. -/
theorem c9_panic_classification (fuel : Nat) (ext : List Nat)
    (add : Option (List Nat)) (ti : TypeInformation) (m : String) (hwf : WfTI ti)
    (h : decodeExtrinsicAndCollectTypeIds fuel ext add ti = .panic m) :
    m = "Composite is always referenced by id; qed" := by
  unfold decodeExtrinsicAndCollectTypeIds at h
  rcases hcd : compactDecode ext with _ | p
  · rw [hcd] at h; simp at h
  · obtain ⟨len, r1⟩ := p
    rw [hcd] at h
    cases r1 with
    | nil => simp at h
    | cons v r2 =>
      simp only at h
      by_cases hv : v &&& 127 ≠ 4
      · rw [if_pos hv] at h; simp at h
      · rw [if_neg hv] at h
        have hsig : ∀ r, (if v &&& 128 ≠ 0 then
              (decodeValue ti fuel .collect ti.extrinsicMetadata.addressTy [] r2).bind fun r =>
                (decodeValue ti fuel .collect ti.extrinsicMetadata.signatureTy r.1 r.2).bind
                  fun r => decodeExtras ti fuel ti.extrinsicMetadata.signedExtensions r.1 r.2
            else .ok ([], r2)) = .ok r → AccCons ti r.1 := by
          intro r hr
          by_cases hsgn : v &&& 128 ≠ 0
          · rw [if_pos hsgn] at hr
            obtain ⟨r3, h3, h4⟩ := DOut.bind_ok hr
            obtain ⟨r4, h5, h6⟩ := DOut.bind_ok h4
            exact (decodeExtras_panic_class hwf
              ((decodeValue_panic_class hwf
                ((decodeValue_panic_class hwf accCons_nil).2 r3 h3)).2 r4 h5)).2 r h6
          · rw [if_neg hsgn] at hr
            cases hr
            exact accCons_nil
        have hsigp : ∀ m2, (if v &&& 128 ≠ 0 then
              (decodeValue ti fuel .collect ti.extrinsicMetadata.addressTy [] r2).bind fun r =>
                (decodeValue ti fuel .collect ti.extrinsicMetadata.signatureTy r.1 r.2).bind
                  fun r => decodeExtras ti fuel ti.extrinsicMetadata.signedExtensions r.1 r.2
            else .ok ([], r2)) = .panic m2 →
            m2 = "Composite is always referenced by id; qed" := by
          intro m2 hm
          by_cases hsgn : v &&& 128 ≠ 0
          · rw [if_pos hsgn] at hm
            rcases DOut.bind_panic hm with h2 | ⟨r3, h3, h4⟩
            · exact (decodeValue_panic_class hwf accCons_nil).1 m2 h2
            · have hc3 := (decodeValue_panic_class hwf accCons_nil).2 r3 h3
              rcases DOut.bind_panic h4 with h5 | ⟨r4, h5, h6⟩
              · exact (decodeValue_panic_class hwf hc3).1 m2 h5
              · exact (decodeExtras_panic_class hwf
                  ((decodeValue_panic_class hwf hc3).2 r4 h5)).1 m2 h6
          · rw [if_neg hsgn] at hm
            simp at hm
        rcases DOut.bind_panic h with h2 | ⟨r5, h5, h6⟩
        · exact hsigp m h2
        · have hc5 := hsig r5 h5
          rcases DOut.bind_panic h6 with h7 | ⟨r6, h7, h8⟩
          · exact (decodeValue_panic_class hwf hc5).1 m h7
          · have hc6 := (decodeValue_panic_class hwf hc5).2 r6 h7
            rcases DOut.bind_panic h8 with h9 | ⟨acc, h9, h10⟩
            · cases add with
              | none => simp at h9
              | some addBytes =>
                simp only at h9
                rcases DOut.bind_panic h9 with h11 | ⟨r7, h11, h12⟩
                · exact (decodeAdditional_panic_class hwf hc6).1 m h11
                · simp at h12
            · simp at h10

theorem c9_panic_classification_witness :
    "Composite is always referenced by id; qed" =
      "Composite is always referenced by id; qed" :=
  c9_panic_classification 10 [0, 4] none tiC9
    "Composite is always referenced by id; qed"
    (by
      intro i l hl v rest he td htd
      by_cases hi : i = 0
      · subst hi
        simp [lookupTypes, lookupTypes.go, tiC9] at hl
        rw [← hl] at he
        simp at he
      · simp [lookupTypes, lookupTypes.go, tiC9, hi] at hl)
    (by decide)

/-! Lemmas for the termination bound of the IR traversal. -/

theorem resolveRef_mem {reg : Registry} {r : Nat} {t : IRType}
    (h : resolveRef reg r = some t) : t ∈ registryEntries reg := by
  unfold resolveRef at h
  rcases hg : reg.get? r with _ | o
  · rw [hg] at h; simp at h
  · rw [hg] at h
    cases o with
    | none => simp at h
    | some t2 =>
      simp at h
      rw [← h]
      exact List.mem_filterMap.mpr ⟨some t2, List.get?_mem hg, rfl⟩

theorem le_foldr_max {l : List Nat} {a : Nat} (h : a ∈ l) :
    a ≤ l.foldr max 0 := by
  induction l with
  | nil => simp at h
  | cons b rest ih =>
    rcases List.mem_cons.mp h with rfl | h2
    · exact le_max_left _ _
    · exact le_trans (ih h2) (le_max_right _ _)

theorem refsOf_le_maxRefs {reg : Registry} {t : IRType}
    (h : t ∈ registryEntries reg) : (refsOf t.typeDef).length ≤ maxRefs reg :=
  le_foldr_max (List.mem_map.mpr ⟨t, h, rfl⟩)

theorem uid_mem_uidFinset {reg : Registry} {r : Nat} {t : IRType}
    (h : resolveRef reg r = some t) : t.uniqueId ∈ uidFinset reg := by
  unfold uidFinset
  rw [List.mem_toFinset]
  exact List.mem_map.mpr ⟨t, resolveRef_mem h, rfl⟩

theorem unvisited_insert {reg : Registry} {visited : List Nat} {uid : Nat}
    (hmem : uid ∈ uidFinset reg) (hnot : uid ∉ visited) :
    unvisited reg (uid :: visited) + 1 = unvisited reg visited := by
  unfold unvisited
  have h1 : (uid :: visited).toFinset = insert uid visited.toFinset := by
    simp
  rw [h1]
  have h2 : uidFinset reg \ insert uid visited.toFinset =
      (uidFinset reg \ visited.toFinset).erase uid := by
    ext x
    simp [Finset.mem_sdiff, Finset.mem_erase]
    tauto
  rw [h2]
  have h3 : uid ∈ uidFinset reg \ visited.toFinset := by
    rw [Finset.mem_sdiff]
    exact ⟨hmem, by simpa using hnot⟩
  rw [Finset.card_erase_of_mem h3]
  have := Finset.card_pos.mpr ⟨uid, h3⟩
  omega

theorem visitRefs_mono (reg : Registry) :
    ∀ fuel st rs, visitRefs reg fuel st rs ≠ .out →
      visitRefs reg (fuel + 1) st rs = visitRefs reg fuel st rs := by
  intro fuel
  induction fuel with
  | zero =>
    intro st rs h
    cases rs with
    | nil => rfl
    | cons r rs => simp [visitRefs] at h
  | succ fuel ih =>
    intro st rs h
    cases rs with
    | nil => rfl
    | cons r rs =>
      simp only [visitRefs] at h ⊢
      rcases hr : resolveRef reg r with _ | t
      · rfl
      · rw [hr] at h
        by_cases hm : t.uniqueId ∈ st.1
        · simp only [hm, if_true] at h ⊢
          exact ih _ _ h
        · simp only [hm, if_false] at h ⊢
          exact ih _ _ h

theorem visitRefs_eq_of_le (reg : Registry) {f g : Nat} {st : VState} {rs : List Nat}
    (hle : f ≤ g) (h : visitRefs reg f st rs ≠ .out) :
    visitRefs reg g st rs = visitRefs reg f st rs := by
  induction g, hle using Nat.le_induction with
  | base => rfl
  | succ g hg ih =>
    rw [← ih]
    exact visitRefs_mono reg g st rs (ih ▸ h)

theorem visitRefs_no_out (reg : Registry) :
    ∀ fuel st rs, needFuel reg st rs ≤ fuel → visitRefs reg fuel st rs ≠ .out := by
  intro fuel
  induction fuel with
  | zero =>
    intro st rs h
    unfold needFuel at h
    omega
  | succ fuel ih =>
    intro st rs h
    cases rs with
    | nil => simp [visitRefs]
    | cons r rs =>
      simp only [visitRefs]
      rcases hr : resolveRef reg r with _ | t
      · simp
      · by_cases hm : t.uniqueId ∈ st.1
        · simp only [hm, if_true]
          refine ih st rs ?_
          unfold needFuel at h ⊢
          simp only [List.length_cons] at h
          omega
        · simp only [hm, if_false]
          refine ih _ _ ?_
          have hmem := uid_mem_uidFinset hr
          have hdec := unvisited_insert hmem hm
          have hlen := refsOf_le_maxRefs (resolveRef_mem hr)
          unfold needFuel at h ⊢
          simp only [List.length_cons, List.length_append] at h ⊢
          have hmul : unvisited reg st.1 * (1 + maxRefs reg) =
              unvisited reg (t.uniqueId :: st.1) * (1 + maxRefs reg) +
                (1 + maxRefs reg) := by
            rw [← hdec]
            ring
          omega

/-- C8: the `visit_type_def` traversal with its `already_visited` set is a
total function even on cyclic registries: from the computable fuel bound
`needFuel` on, the traversal result is stable and never runs out of fuel,
because each unique id is entered at most once per traversal. -/
theorem c8_traversal_terminates (reg : Registry) (st : VState) (rs : List Nat)
    (f : Nat) (hf : needFuel reg st rs ≤ f) :
    visitRefs reg f st rs = visitRefs reg (needFuel reg st rs) st rs ∧
      visitRefs reg f st rs ≠ .out := by
  have hno := visitRefs_no_out reg (needFuel reg st rs) st rs (le_refl _)
  have heq := visitRefs_eq_of_le reg hf hno
  exact ⟨heq, heq ▸ hno⟩

def tdListCyc : IRTypeDef :=
  .enumeration [⟨"None", [], 0⟩, ⟨"Cons", [⟨none, 1, none⟩, ⟨none, 0, none⟩], 1⟩]

/-- Self-referential registry: `List = None | Cons(u8, List)`. -/
def regCyc : Registry :=
  [some ⟨["List"], tdListCyc, 0⟩, some ⟨[], .primitive .u8, 1⟩]

def regI8 : Registry :=
  [some ⟨[], .compact 1, 0⟩, some ⟨[], .primitive .i8, 1⟩]

def regVoidC : Registry :=
  [some ⟨[], .compact 1, 0⟩, some ⟨[], .composite [], 1⟩]

def regU32 : Registry :=
  [some ⟨[], .compact 1, 0⟩, some ⟨[], .primitive .u32, 1⟩]

/-- C4 counterexample: lowering `compact<i8>` panics instead of returning an
error, and `compact` over a primitive-free composite is silently lowered to
the void TypeRef instead of being a lowering error. -/
theorem c4_cex :
    asBasicTypeRef regI8 ⟨[], .compact 1, 0⟩ =
        .panic "Unsupported primitive type for Compact" ∧
      asBasicTypeRef regVoidC ⟨[], .compact 1, 0⟩ = .ok .void := by
  refine ⟨by decide, by decide⟩

/-- Unsigned-integer primitives and their inlined compact forms. -/
def unsignedCompactRef : Prim → Option TypeRefD
  | .u8 => some .compactU8
  | .u16 => some .compactU16
  | .u32 => some .compactU32
  | .u64 => some .compactU64
  | .u128 => some .compactU128
  | _ => none

/-- Result shape of lowering a compact reference as a function of the
collected primitive closure. -/
def compactLowerResult : List Prim → DOut TypeRefD
  | [] => .ok .void
  | [p] =>
    match unsignedCompactRef p with
    | some r => .ok r
    | none => .panic "Unsupported primitive type for Compact"
  | _ => .panic "Unexpected"

/-- C4 (amended): lowering a `compact` reference inspects the collected
primitive closure: an unsigned-integer primitive yields the inlined compact
TypeRef, no primitive at all silently yields void, and any other single
primitive panics (as does a closure with several primitives); no error is
ever returned to the caller and no by-id reference is produced. -/
theorem c4_compact_lowering (reg : Registry) (t : IRType) (c : Nat)
    (found : List Prim) (ht : t.typeDef = .compact c)
    (hf : collectPrimitives reg t.typeDef = .ok found) :
    asBasicTypeRef reg t = compactLowerResult found := by
  obtain ⟨path, td, uid⟩ := t
  simp only at ht hf ⊢
  subst ht
  unfold asBasicTypeRef
  simp only at hf ⊢
  rw [hf]
  simp only [DOut.bind]
  rcases found with _ | ⟨p, _ | ⟨q, rest⟩⟩
  · simp [compactLowerResult]
  · cases p <;> simp [unsignedCompactRef, compactLowerResult]
  · simp only [List.length_cons, compactLowerResult]
    rw [if_pos (by omega)]

theorem c4_compact_lowering_witness :
    asBasicTypeRef regU32 ⟨[], .compact 1, 0⟩ = .ok .compactU32 := by
  have h := c4_compact_lowering regU32 ⟨[], .compact 1, 0⟩ 1 [.u32] rfl (by decide)
  simpa [unsignedCompactRef, compactLowerResult] using h

/-- C6: every entry surviving lowering (where `as_basic_type` returns
`Some`) has a type definition that is neither `Primitive` nor `Compact` and,
when it is a `Composite` or `Tuple`, a non-empty collected primitive
closure; conversely a `Composite`/`Tuple` with empty closure is discarded
(`as_basic_type` returns `None`) and every use-site reference to it lowers
to the inlined void TypeRef. -/
theorem c6_canonical_inlining (reg : Registry) (t : IRType) :
    (∀ r, asBasicType reg t = .ok (some r) →
      (∀ p, t.typeDef ≠ .primitive p) ∧ (∀ c, t.typeDef ≠ .compact c) ∧
        (((∃ fs, t.typeDef = .composite fs) ∨ (∃ ts, t.typeDef = .tuple ts)) →
          collectPrimitives reg t.typeDef ≠ .ok [])) ∧
    (((∃ fs, t.typeDef = .composite fs) ∨ (∃ ts, t.typeDef = .tuple ts)) →
      collectPrimitives reg t.typeDef = .ok [] →
      asBasicType reg t = .ok none ∧ asBasicTypeRef reg t = .ok .void) := by
  constructor
  · intro r h
    unfold asBasicType at h
    rcases hc : collectPrimitives reg t.typeDef with _ | m | m | found <;> rw [hc] at h
    · simp [DOut.bind] at h
    · simp [DOut.bind] at h
    · simp [DOut.bind] at h
    · simp only [DOut.bind] at h
      refine ⟨fun p hp => ?_, fun c hp => ?_, ?_⟩
      · rw [hp] at h; simp at h
      · rw [hp] at h; simp at h
      · rintro (⟨fs, hp⟩ | ⟨ts, hp⟩) hem
        all_goals
          have hfe : found = [] := DOut.ok.inj hem
          subst hfe
          rw [hp] at h
          simp at h
  · rintro hor hem
    unfold asBasicType asBasicTypeRef
    rw [hem]
    simp only [DOut.bind]
    rcases hor with ⟨fs, hp⟩ | ⟨ts, hp⟩ <;> rw [hp] <;> simp

theorem c6_canonical_inlining_witness :
    asBasicType regVoidC ⟨[], .composite [], 1⟩ = .ok none ∧
      asBasicTypeRef regVoidC ⟨[], .composite [], 1⟩ = .ok .void :=
  (c6_canonical_inlining regVoidC ⟨[], .composite [], 1⟩).2
    (Or.inl ⟨[], rfl⟩) (by decide)

theorem c8_traversal_terminates_witness :
    needFuel regCyc ([], primsOf tdListCyc) (refsOf tdListCyc) ≤ 50 ∧
      collectPrimitives regCyc tdListCyc = .ok [.u8] ∧
      (visitRefs regCyc 50 ([], primsOf tdListCyc) (refsOf tdListCyc) =
          visitRefs regCyc (needFuel regCyc ([], primsOf tdListCyc) (refsOf tdListCyc))
            ([], primsOf tdListCyc) (refsOf tdListCyc) ∧
        visitRefs regCyc 50 ([], primsOf tdListCyc) (refsOf tdListCyc) ≠ .out) :=
  ⟨by decide, by decide,
    c8_traversal_terminates regCyc ([], primsOf tdListCyc) (refsOf tdListCyc) 50
      (by decide)⟩

/-! Lemmas about insertion sort and the leaf vector, for the leaf-order
invariant. -/

theorem mem_head?_mem {α : Type} {l : List α} {y : α} (h : l.head? = some y) :
    y ∈ l := by
  cases l with
  | nil => simp at h
  | cons x xs => simp at h; simp [h]

theorem mem_getLast?_mem {α : Type} : ∀ {l : List α} {y : α},
    l.getLast? = some y → y ∈ l := by
  intro l
  induction l with
  | nil => intro y h; simp at h
  | cons x xs ih =>
    intro y h
    cases xs with
    | nil => simp at h; simp [h]
    | cons b t =>
      rw [List.getLast?_cons_cons] at h
      exact List.mem_cons_of_mem x (ih h)

theorem insertByKey_perm {α : Type} (key : α → Nat) (x : α) :
    ∀ l : List α, (insertByKey key x l).Perm (x :: l) := by
  intro l
  induction l with
  | nil => simp [insertByKey]
  | cons y ys ih =>
    simp only [insertByKey]
    split
    · exact List.Perm.refl _
    · exact (ih.cons y).trans (List.Perm.swap x y ys)

theorem sortByKey_perm {α : Type} (key : α → Nat) :
    ∀ l : List α, (sortByKey key l).Perm l := by
  intro l
  induction l with
  | nil => simp [sortByKey]
  | cons x xs ih =>
    simp only [sortByKey]
    exact (insertByKey_perm key x (sortByKey key xs)).trans (ih.cons x)

theorem insertByKey_head {α : Type} {key : α → Nat} {x y : α} {l : List α}
    (h : (insertByKey key x l).head? = some y) : y = x ∨ l.head? = some y := by
  cases l with
  | nil => simp [insertByKey] at h; simp [h]
  | cons z zs =>
    simp only [insertByKey] at h
    split at h
    · simp at h; simp [h]
    · simp at h; simp [h]

theorem insertByKey_sorted {α : Type} {key : α → Nat} {x : α} :
    ∀ {l : List α}, List.Chain' (fun a b => key a ≤ key b) l →
      List.Chain' (fun a b => key a ≤ key b) (insertByKey key x l) := by
  intro l
  induction l with
  | nil => intro h; simp [insertByKey]
  | cons y ys ih =>
    intro h
    rw [List.chain'_cons'] at h
    obtain ⟨hhead, htail⟩ := h
    simp only [insertByKey]
    by_cases hk : key x ≤ key y
    · rw [if_pos hk]
      rw [List.chain'_cons']
      exact ⟨fun z hz => by simp at hz; rw [← hz]; exact hk,
        List.chain'_cons'.mpr ⟨hhead, htail⟩⟩
    · rw [if_neg hk]
      rw [List.chain'_cons']
      refine ⟨fun z hz => ?_, ih htail⟩
      rcases insertByKey_head hz with rfl | hz2
      · omega
      · exact hhead z hz2

theorem sortByKey_sorted {α : Type} (key : α → Nat) :
    ∀ l : List α, List.Chain' (fun a b => key a ≤ key b) (sortByKey key l) := by
  intro l
  induction l with
  | nil => simp [sortByKey]
  | cons x xs ih =>
    simp only [sortByKey]
    exact insertByKey_sorted ih

theorem chain_lt_of_le_nodup : ∀ {l : List Nat},
    List.Chain' (· ≤ ·) l → l.Nodup → List.Chain' (· < ·) l := by
  intro l
  induction l with
  | nil => intro _ _; simp
  | cons x xs ih =>
    intro hle hnd
    rw [List.chain'_cons'] at hle ⊢
    obtain ⟨hhead, htail⟩ := hle
    rw [List.nodup_cons] at hnd
    refine ⟨fun y hy => ?_, ih htail hnd.2⟩
    have h1 := hhead y hy
    have h2 : y ∈ xs := mem_head?_mem hy
    have h3 : x ≠ y := fun he => hnd.1 (he ▸ h2)
    omega

theorem chain_fst_all {p : Nat × LeafEntry} :
    ∀ {rest : List (Nat × LeafEntry)},
      List.Chain' (fun a b => a.1 < b.1) (p :: rest) → ∀ q ∈ rest, p.1 < q.1 := by
  intro rest
  induction rest generalizing p with
  | nil => intro _ q hq; simp at hq
  | cons y ys ih =>
    intro h q hq
    rw [List.chain'_cons] at h
    rcases List.mem_cons.mp hq with rfl | hq2
    · exact h.1
    · exact lt_trans h.1 (ih h.2 q hq2)

theorem leafVector_mem_fst : ∀ {entries : List (Nat × LeafEntry)}
    {x : Nat × Nat}, x ∈ leafVector entries → ∃ q ∈ entries, x.1 = q.1 := by
  intro entries
  induction entries with
  | nil => intro x hx; simp [leafVector] at hx
  | cons p rest ih =>
    obtain ⟨uid, e⟩ := p
    intro x hx
    simp only [leafVector] at hx
    rcases List.mem_append.mp hx with hx1 | hx2
    · cases e with
      | single =>
        simp at hx1
        exact ⟨(uid, .single), by simp, by simp [hx1]⟩
      | enumVariants idxs =>
        simp only [List.mem_map] at hx1
        obtain ⟨ix, _, hix⟩ := hx1
        exact ⟨(uid, .enumVariants idxs), by simp, by simp [← hix]⟩
    · obtain ⟨q, hq, hxq⟩ := ih hx2
      exact ⟨q, by simp [hq], hxq⟩

/-- C5: leaf order monotonicity.  With surviving entries listed per unique
id in strictly increasing id order and each enumeration carrying distinct
variant indices (spec section 3.3), every adjacent pair of emitted leaves
satisfies strictly-increasing unique id or equal ids with strictly
increasing variant index: the leaf order is exactly sorting by
`(unique_id, variant_index)`. -/
theorem c5_leaf_order : ∀ (entries : List (Nat × LeafEntry)),
    List.Chain' (fun a b => a.1 < b.1) entries →
    (∀ p ∈ entries, ∀ idxs, p.2 = LeafEntry.enumVariants idxs → idxs.Nodup) →
    List.Chain' leafLt (leafVector entries) := by
  intro entries
  induction entries with
  | nil => intro _ _; simp [leafVector]
  | cons p rest ih =>
    obtain ⟨uid, e⟩ := p
    intro hkeys hnodup
    have hgrp : ∀ x ∈ (match e with
        | LeafEntry.single => [(uid, 0)]
        | LeafEntry.enumVariants idxs =>
          (sortByKey id idxs).map fun ix => (uid, ix) : List (Nat × Nat)),
        x.1 = uid := by
      intro x hx
      cases e with
      | single => simp at hx; simp [hx]
      | enumVariants idxs =>
        simp only [List.mem_map] at hx
        obtain ⟨ix, _, hix⟩ := hx
        simp [← hix]
    simp only [leafVector]
    rw [List.chain'_append]
    refine ⟨?_, ?_, ?_⟩
    · cases e with
      | single => simp
      | enumVariants idxs =>
        have hnd : idxs.Nodup :=
          hnodup (uid, .enumVariants idxs) (by simp) idxs rfl
        have hsorted : List.Chain' (· ≤ ·) (sortByKey id idxs) :=
          sortByKey_sorted id idxs
        have hnd2 : (sortByKey id idxs).Nodup :=
          ((sortByKey_perm id idxs).nodup_iff).mpr hnd
        have hlt := chain_lt_of_le_nodup hsorted hnd2
        refine List.chain'_map_of_chain' (fun ix => ((uid, ix) : Nat × Nat)) ?_ hlt
        intro a b hab
        exact Or.inr ⟨rfl, hab⟩
    · exact ih ((List.chain'_cons'.mp hkeys).2)
        (fun q hq => hnodup q (List.mem_cons_of_mem _ hq))
    · intro x hx y hy
      have hx2 : x.1 = uid := hgrp x (mem_getLast?_mem hx)
      obtain ⟨q, hq, hyq⟩ := leafVector_mem_fst (mem_head?_mem hy)
      have : uid < q.1 := chain_fst_all hkeys q hq
      exact Or.inl (by omega)

theorem c5_leaf_order_witness :
    List.Chain' leafLt (leafVector [(0, .single), (2, .enumVariants [1, 0])]) := by
  refine c5_leaf_order [(0, .single), (2, .enumVariants [1, 0])]
    (List.chain'_cons.mpr ⟨by decide, List.chain'_singleton _⟩) ?_
  intro p hp idxs he
  rcases List.mem_cons.mp hp with rfl | hp2
  · simp at he
  · rcases List.mem_cons.mp hp2 with rfl | hp3
    · simp at he
      subst he
      decide
    · simp at hp3

end MMeta
